import Mathlib

/-!
# onos-cli, `pkg/kpimon/kpi.go`: the metric table of `onos kpimon list metrics`

A shallow embedding of `runListMetricsCommand` (kpi.go, lines 44-180).  The
handler fetches one measurement response, aggregates it into the nested map
`results[key][timestamp][metric name]`, and writes a header line and one line
per (key, timestamp) to a `tabwriter.Writer`.

Conventions of the embedding:

* Go maps are association lists in insertion order (`mapSet`, `mapGet`);
  ranging over a map visits the entries of the list in order.  The response map
  is the list of its entries in the order the `range` of line 67 visits them.
* Go strings are `String`; `uint64` timestamps are `Nat` (reduced modulo `2^64`
  where the code converts to `int64`); `int`, `int64` and `int32` are `Int`.
* The output is the list of lines handed to `fmt.Fprintln(writer, ...)`, in
  order, together with the way the handler ends: `nil`, a returned error, or a
  run-time index failure.  The table writer aligns what it was handed when it
  is flushed, which happens on the `return nil` path only (line 177).
* The embedding starts where the response has arrived (line 66); a failed
  connection or call returns before anything is written (lines 49-64).  The
  entries, items and records of the response are present (no nil pointers),
  as decoding yields them.
* What the Go standard library and the generated protobuf types do
  (`strconv.Atoi`, `strings.Split`, `sort`, `time`, `fmt` verbs, `types.Is`) is
  written out below next to the call sites that use it.
-/

namespace Kpimon

/-! ## Data model -/

/-- The value of a measurement record as the type switch of lines 87-112 sees
it.  `integerValue v`: the `Any` is an `IntegerValue` and `GetValue()` is the
`int64` `v`; `realValue bits`: a `RealValue` whose `float64` has the IEEE-754
bit pattern `bits`; `noValue v`: a `NoValue` whose `GetValue()` is the `int32`
`v`; `unknown`: none of the three `prototypes.Is` tests succeeds (any other
type URL, or a nil `Any`). -/
inductive MeasValue where
  | integerValue (v : Int)
  | realValue (bits : Nat)
  | noValue (v : Int)
  | unknown
  deriving DecidableEq, Repr

/-- A measurement record: `Timestamp` (uint64 nanoseconds), `MeasurementName`
and `MeasurementValue`. -/
structure MeasurementRecord where
  timestamp : Nat
  measurementName : String
  measurementValue : MeasValue
  deriving DecidableEq, Repr

/-- A measurement item: its `MeasurementRecords`, in order. -/
abbrev MeasurementItem := List MeasurementRecord

/-- The map returned by `GetMeasurements()`: composite key to the
`MeasurementItems` of that key, as the list of entries in iteration order. -/
abbrev Response := List (String × List MeasurementItem)

/-- What the handler takes from its surroundings: the local time zone
(`time.Unix` yields a local time; `zoneOffset s` is the offset, in seconds east
of UTC, in force at Unix second `s`) and the text `fmt` prints for a `float64`
under `%v`, given its bit pattern. -/
structure Env where
  zoneOffset : Int → Int
  fmtFloat : Nat → String

/-! ## Go maps as association lists -/

/-- The assignment `m[k] = v`: replaces the value of an existing key in place,
appends a new entry otherwise. -/
def mapSet {κ ν : Type} [DecidableEq κ] (k : κ) (v : ν) : List (κ × ν) → List (κ × ν)
  | [] => [(k, v)]
  | (k0, v0) :: m => if k0 = k then (k, v) :: m else (k0, v0) :: mapSet k v m

/-- The lookup `v, ok := m[k]`: `some v` when the key is present. -/
def mapGet {κ ν : Type} [DecidableEq κ] (k : κ) : List (κ × ν) → Option ν
  | [] => none
  | (k0, v0) :: m => if k0 = k then some v0 else mapGet k m

/-- The keys of a map, in iteration order. -/
def mapKeys {κ ν : Type} (m : List (κ × ν)) : List κ :=
  m.map Prod.fst

/-! ## Formatting verbs of `fmt` -/

/-- The verbs `%d` / `%v` (base 10) and `%x` (base 16) on an integer: a minus
sign for a negative number, then the digits of the magnitude, lowercase, with
no prefix and no padding. -/
def fmtInt (base : Nat) (v : Int) : String :=
  if v < 0 then String.mk ('-' :: Nat.toDigits base v.natAbs)
  else String.mk (Nat.toDigits base v.natAbs)

/-- The verb `%02d` on a non-negative integer: decimal, padded with a zero on
the left to a width of two. -/
def fmtD02 (n : Nat) : String :=
  let ds := Nat.toDigits 10 n
  if ds.length < 2 then String.mk ('0' :: ds) else String.mk ds

/-- The text of `fmt.Sprintf("%v", value)` for the `interface{}` of line 85
after the type switch: the decimal integer, the float, or `<nil>` when no case
assigned it. -/
def sprintValue (env : Env) : MeasValue → String
  | .integerValue v => fmtInt 10 v
  | .realValue bits => env.fmtFloat bits
  | .noValue v => fmtInt 10 v
  | .unknown => "<nil>"

/-! ## `strconv.Atoi` -/

/-- The two errors of `strconv`: `ErrSyntax` and `ErrRange`. -/
inductive AtoiErr where
  | invalid
  | outOfRange
  deriving DecidableEq, Repr

/-- The `*strconv.NumError` returned by `Atoi`: the text that failed to parse
and the reason. -/
structure NumError where
  num : String
  err : AtoiErr
  deriving DecidableEq, Repr

/-- The digit loop of `strconv.ParseUint(s, 10, 64)`: a byte that is not a
decimal digit is a syntax error, leaving the `uint64` range a range error,
whichever comes first. -/
def parseUintLoop : List Char → Nat → Except AtoiErr Nat
  | [], n => .ok n
  | c :: cs, n =>
    if c.isDigit then
      if n ≥ (2 ^ 64 - 1) / 10 + 1 then .error .outOfRange
      else if n * 10 + (c.toNat - 48) > 2 ^ 64 - 1 then .error .outOfRange
      else parseUintLoop cs (n * 10 + (c.toNat - 48))
    else .error .invalid

/-- The function `strconv.Atoi` on a 64-bit platform: an optional sign, then
at least one decimal digit, with the value in the `int64` range. -/
def atoi (s : String) : Except NumError Int :=
  match s.data with
  | [] => .error ⟨s, .invalid⟩
  | c :: cs =>
    let neg := c = '-'
    let body := if c = '+' ∨ c = '-' then cs else c :: cs
    if body = [] then .error ⟨s, .invalid⟩
    else
      match parseUintLoop body 0 with
      | .error e => .error ⟨s, e⟩
      | .ok un =>
        if ¬ neg ∧ un ≥ 2 ^ 63 then .error ⟨s, .outOfRange⟩
        else if neg ∧ un > 2 ^ 63 then .error ⟨s, .outOfRange⟩
        else .ok (if neg then - (un : Int) else (un : Int))

/-! ## `strings.Split` and `time` -/

/-- The call `strings.Split(keyID, ":")`: the pieces of the key between
colons, all of them; a key without a colon gives the key alone. -/
def splitKey (keyID : String) : List String :=
  (keyID.data.splitOn ':').map String.mk

/-- The conversion `int64(timeStamp)` of a `uint64`. -/
def toInt64 (t : Nat) : Int :=
  if t % 2 ^ 64 < 2 ^ 63 then (t % 2 ^ 64 : Nat) else (t % 2 ^ 64 : Nat) - 2 ^ 64

/-- Line 153: `time.Unix(0, int64(timeStamp))` read back through `Hour()`,
`Minute()`, `Second()` and `Nanosecond()/1000000`, printed with
`"%02d:%02d:%02d.%d"`.  `time.Unix` normalises the nanoseconds into a second
count and a remainder in `[0, 10^9)`; the clock fields are those of the second
count shifted by the zone offset. -/
def tsFormat (env : Env) (timeStamp : Nat) : String :=
  let nsec := toInt64 timeStamp
  let sec := nsec / 1000000000
  let nano := nsec % 1000000000
  let wall := sec + env.zoneOffset sec
  let hour := (wall % 86400) / 3600
  let minute := (wall % 3600) / 60
  let second := wall % 60
  fmtD02 hour.toNat ++ ":" ++ fmtD02 minute.toNat ++ ":" ++ fmtD02 second.toNat ++ "."
    ++ fmtInt 10 (nano / 1000000)

/-! ## Aggregation (lines 66-117) -/

/-- The innermost map of `results`: metric name to stringified value. -/
abbrev Cells := List (String × String)

/-- The map `results`: key, then timestamp, then metric name. -/
abbrev Results := List (String × List (Nat × Cells))

/-- The two maps the aggregation loop fills. -/
structure Agg where
  attr : List (String × String)
  results : Results

/-- The body of the innermost loop (lines 70-114) for one record under `key`. -/
def addRecord (env : Env) (key : String) (st : Agg) (r : MeasurementRecord) : Agg :=
  let timeStamp := r.timestamp
  let measName := r.measurementName
  let attr :=
    if (mapGet measName st.attr).isNone then mapSet measName measName st.attr else st.attr
  let results :=
    if (mapGet key st.results).isNone then mapSet key [] st.results else st.results
  let byTime := (mapGet key results).getD []
  let byTime :=
    if (mapGet timeStamp byTime).isNone then mapSet timeStamp [] byTime else byTime
  let cells := (mapGet timeStamp byTime).getD []
  let cells := mapSet measName (sprintValue env r.measurementValue) cells
  ⟨attr, mapSet key (mapSet timeStamp cells byTime) results⟩

/-- The loops of lines 67-117 over the entries of the response, the items of
each entry and the records of each item. -/
def aggregate (env : Env) (resp : Response) : Agg :=
  resp.foldl
    (fun st entry =>
      entry.2.foldl (fun st measItem => measItem.foldl (addRecord env entry.1) st) st)
    ⟨[], []⟩

/-! ## Rendering (lines 119-179) -/

/-- The comparison `a < b` of two Go strings, on their characters: the first
position where they differ decides, and a proper prefix is smaller.  (Go
compares bytes of the UTF-8 encoding, which orders strings as their code
points do.) -/
def strLtList : List Char → List Char → Bool
  | _, [] => false
  | [], _ :: _ => true
  | a :: as, b :: bs =>
    if a < b then true
    else if b < a then false
    else strLtList as bs

/-- The order `sort.Strings` sorts by: `a` may stand before `b` when `b < a`
does not hold. -/
def strLe (a b : String) : Prop :=
  strLtList b.data a.data = false

instance strLeDecidable : DecidableRel strLe :=
  fun a b => inferInstanceAs (Decidable (strLtList b.data a.data = false))

/-- Lines 119-122: the keys of `attr`, sorted by `sort.Strings`. -/
def sortedTypes (attr : List (String × String)) : List String :=
  (mapKeys attr).insertionSort strLe

/-- Lines 124-129: the header text. -/
def headerLine (types : List String) : String :=
  types.foldl (fun header key => header ++ "\t" ++ key) "Node ID\tCell ID\tTime"

/-- Lines 163-172: the value columns appended to the start of a row. -/
def appendCells (types : List String) (cells : Cells) (start : String) : String :=
  types.foldl
    (fun resultLine typeValue =>
      let tmpValue :=
        match mapGet typeValue cells with
        | none => "N/A"
        | some v => v
      resultLine ++ "\t" ++ tmpValue)
    start

/-- The two ways the handler stops before `return nil`: `return err` with the
error of `strconv.Atoi` (line 160), or the run-time failure of `ids[1]` on a
one-element slice (line 156). -/
inductive Failure where
  | parseError (e : NumError)
  | indexOutOfRange
  deriving DecidableEq, Repr

/-- The lines written to the table writer, in order, and the way the handler
ended (`none`: it returned `nil`). -/
structure Result where
  lines : List String
  failure : Option Failure
  deriving DecidableEq, Repr

/-- Lines 155-156: `ids := strings.Split(keyID, ":")` and
`nodeID, cellID := ids[0], ids[1]`; `none` when `ids[1]` is out of range. -/
def keyIDs (keyID : String) : Option (String × String) :=
  match splitKey keyID with
  | nodeID :: cellID :: _ => some (nodeID, cellID)
  | _ => none

/-- The body of the loop over timestamps (lines 152-173) for one timestamp of
one key: the line it writes, or the way it stops the handler. -/
def renderRow (env : Env) (types : List String) (keyID : String)
    (metrics : List (Nat × Cells)) (timeStamp : Nat) : Except Failure String :=
  let ts := tsFormat env timeStamp
  match keyIDs keyID with
  | none => .error .indexOutOfRange
  | some (nodeID, cellID) =>
    match atoi cellID with
    | .error e => .error (.parseError e)
    | .ok cellNum =>
      let resultLine := nodeID ++ "\t" ++ fmtInt 16 cellNum ++ "\t" ++ ts
      .ok (appendCells types ((mapGet timeStamp metrics).getD []) resultLine)

/-- The loop of lines 151-174 over the sorted timestamps of one key. -/
def renderTimes (env : Env) (types : List String) (keyID : String)
    (metrics : List (Nat × Cells)) : List Nat → Result
  | [] => ⟨[], none⟩
  | timeStamp :: rest =>
    match renderRow env types keyID metrics timeStamp with
    | .error f => ⟨[], some f⟩
    | .ok resultLine =>
      let r := renderTimes env types keyID metrics rest
      ⟨resultLine :: r.lines, r.failure⟩

/-- Lines 144-149: the timestamps of one key, sorted ascending by
`sort.Slice`. -/
def sortedTimes (metrics : List (Nat × Cells)) : List Nat :=
  (mapKeys metrics).insertionSort (· ≤ ·)

/-- The loop of lines 141-175 over the sorted keys. -/
def renderKeys (env : Env) (types : List String) (results : Results) : List String → Result
  | [] => ⟨[], none⟩
  | keyID :: rest =>
    let metrics := (mapGet keyID results).getD []
    let r := renderTimes env types keyID metrics (sortedTimes metrics)
    match r.failure with
    | none =>
      let r2 := renderKeys env types results rest
      ⟨r.lines ++ r2.lines, r2.failure⟩
    | some f => ⟨r.lines, some f⟩

/-- Lines 135-139: the keys of `results`, sorted by `sort.Strings`. -/
def sortedKeys (results : Results) : List String :=
  (mapKeys results).insertionSort strLe

/-- The handler `runListMetricsCommand` from the point where the response has
arrived (line 66) to its return: aggregation, sorted columns, optional header,
rows. -/
def runListMetricsCommand (env : Env) (noHeaders : Bool) (resp : Response) : Result :=
  let agg := aggregate env resp
  let types := sortedTypes agg.attr
  let header := headerLine types
  let r := renderKeys env types agg.results (sortedKeys agg.results)
  ⟨(if noHeaders then [] else [header]) ++ r.lines, r.failure⟩

/-! ## Notions used to state the properties -/

/-- Every record of the response paired with its key, in the order the loops
of lines 67-69 visit them. -/
def records (resp : Response) : List (String × MeasurementRecord) :=
  resp.flatMap (fun entry => entry.2.flatMap (fun measItem => measItem.map (fun r => (entry.1, r))))

/-- The record `p` is stored under key `k` with timestamp `t`. -/
def atRow (k : String) (t : Nat) (p : String × MeasurementRecord) : Prop :=
  p.1 = k ∧ p.2.timestamp = t

/-- The record `p` is stored under key `k` with timestamp `t` and metric name
`m`. -/
def atCell (k : String) (t : Nat) (m : String) (p : String × MeasurementRecord) : Prop :=
  p.1 = k ∧ p.2.timestamp = t ∧ p.2.measurementName = m

instance atRowDecidable (k : String) (t : Nat) : DecidablePred (atRow k t) :=
  fun p => inferInstanceAs (Decidable (p.1 = k ∧ p.2.timestamp = t))

instance atCellDecidable (k : String) (t : Nat) (m : String) : DecidablePred (atCell k t m) :=
  fun p => inferInstanceAs (Decidable (p.1 = k ∧ p.2.timestamp = t ∧ p.2.measurementName = m))

/-- The value of the last record of the list stored under key `k` with
timestamp `t` and metric name `m`, if there is one. -/
def lastValue (l : List (String × MeasurementRecord)) (k : String) (t : Nat) (m : String) :
    Option MeasValue :=
  l.foldl (fun acc p => if atCell k t m p then some p.2.measurementValue else acc) none

/-- The aggregation loop run over a list of records with their keys. -/
def aggregateList (env : Env) (l : List (String × MeasurementRecord)) : Agg :=
  l.foldl (fun st p => addRecord env p.1 st p.2) ⟨[], []⟩

/-- The (key, timestamp) pairs of `results` in the order the loops of lines
141 and 151 visit them, for the given order of the keys. -/
def rowsOf (results : Results) (keys : List String) : List (String × Nat) :=
  keys.flatMap (fun k => (sortedTimes ((mapGet k results).getD [])).map (fun t => (k, t)))

/-- The order of the rows: by key, and by timestamp within a key. -/
def rowLt (p q : String × Nat) : Prop :=
  p.1 < q.1 ∨ (p.1 = q.1 ∧ p.2 < q.2)

/-- The way the loop body of lines 152-173 stops the handler at a row of key
`keyID`, if it does: the index failure of line 156 or the parse error of line
160.  It depends on the key alone. -/
def keyFailure (keyID : String) : Option Failure :=
  match keyIDs keyID with
  | none => some .indexOutOfRange
  | some (_, cellID) =>
    match atoi cellID with
    | .error e => some (.parseError e)
    | .ok _ => none

/-- The text of a key before its first colon (the whole key when it has
none). -/
def keyNode (k : String) : String :=
  String.mk (k.data.takeWhile (fun c => c != ':'))

/-- The text of a key after its first colon (empty when it has none). -/
def keyCell (k : String) : String :=
  String.mk ((k.data.dropWhile (fun c => c != ':')).drop 1)

/-- The text of a key between its first colon and the next one (or the end
of the key). -/
def keySecond (k : String) : String :=
  keyNode (keyCell k)

/-- A key of the form node:cell, split at its first colon, whose cell is
accepted by `strconv.Atoi`. -/
def wellFormedKey (k : String) : Prop :=
  ':' ∈ k.data ∧ (atoi (keyCell k)).isOk = true

instance wellFormedKeyDecidable : DecidablePred wellFormedKey :=
  fun k => inferInstanceAs (Decidable (':' ∈ k.data ∧ (atoi (keyCell k)).isOk = true))

/-- The hexadecimal text (verb `%x`) of the number a cell text parses to;
empty when `strconv.Atoi` rejects the text. -/
def hexOfCell (cell : String) : String :=
  match atoi cell with
  | .ok v => fmtInt 16 v
  | .error _ => ""

/-- The metric names of all records of the response, with repetitions. -/
def metricNames (resp : Response) : List String :=
  (records resp).map (fun p => p.2.measurementName)

/-- Fields joined by single tab characters. -/
def joinTabs (fields : List String) : String :=
  String.mk (List.intercalate ['\t'] (fields.map String.data))

/-- The tab-separated fields of a line. -/
def tabFields (line : String) : List String :=
  (line.data.splitOn '\t').map String.mk

/-- The text shown for metric `m` in the row of key `k` and timestamp `t`:
the entry `results[k][t][m]` when present, the marker otherwise (lines
166-170). -/
def cellText (results : Results) (k : String) (t : Nat) (m : String) : String :=
  match mapGet m ((mapGet t ((mapGet k results).getD [])).getD []) with
  | none => "N/A"
  | some v => v

/-- The row the handler writes for key `k` and timestamp `t` of the response,
or the way it stops there. -/
def rowOf (env : Env) (resp : Response) (k : String) (t : Nat) : Except Failure String :=
  let agg := aggregate env resp
  renderRow env (sortedTypes agg.attr) k ((mapGet k agg.results).getD []) t

/-- The metric columns of the table for a response. -/
def columns (env : Env) (resp : Response) : List String :=
  sortedTypes (aggregate env resp).attr

/-- The value of a hexadecimal digit, lowercase or uppercase. -/
def hexDigitValue (c : Char) : Option Nat :=
  if '0' ≤ c ∧ c ≤ '9' then some (c.toNat - 48)
  else if 'a' ≤ c ∧ c ≤ 'f' then some (c.toNat - 87)
  else if 'A' ≤ c ∧ c ≤ 'F' then some (c.toNat - 55)
  else none

/-- Reading a text as a hexadecimal numeral; `none` when a character is not a
hexadecimal digit. -/
def hexValue (s : String) : Option Nat :=
  s.data.foldl (fun acc c => acc.bind (fun n => (hexDigitValue c).map (fun d => n * 16 + d)))
    (some 0)

/-- The response with every record's value replaced by `f` of the record. -/
def mapValues (f : MeasurementRecord → MeasValue) (resp : Response) : Response :=
  resp.map (fun entry =>
    (entry.1, entry.2.map (fun measItem =>
      measItem.map (fun r => ⟨r.timestamp, r.measurementName, f r⟩))))

/-- The environment used for concrete evaluations: UTC, floats not printed. -/
def utcEnv : Env := ⟨fun _ => 0, fun _ => "float"⟩

/-- A response with a key without a colon sorted before a key whose cell is
not a number. -/
def colonlessResponse : Response :=
  [("a", [[⟨7, "m", .integerValue 1⟩]]), ("b:x", [[⟨7, "m", .integerValue 2⟩]])]

/-- A response with a key whose cell is a number and a key whose cell is
not. -/
def badCellResponse : Response :=
  [("n:x", [[⟨7, "m", .integerValue 1⟩]]), ("n:1", [[⟨7, "m", .integerValue 2⟩]])]

/-- A response whose only key has two colons. -/
def twoColonResponse : Response :=
  [("n:10:20", [[⟨7, "m", .integerValue 1⟩]])]

/-- A variant of the sample response: the row of key `node1:10` at 5 ms holds
the same record, the other records are changed, removed or added under
another timestamp and another key, and the metric names are the same two. -/
def sampleVariant : Response :=
  [("node1:10", [[⟨5000000, "rsrp", .integerValue 5⟩, ⟨1600000000, "rsrp", .integerValue 9⟩]]),
   ("node2:3", [[⟨7, "rsrq", .realValue 0⟩]])]

/-- A response with a key without a colon sorted after a key whose cell is
not a number. -/
def lateColonlessResponse : Response :=
  [("z", [[⟨7, "m", .integerValue 1⟩]]), ("a:x", [[⟨7, "m", .integerValue 2⟩]])]

/-- A response with three records of one key, timestamp and metric name, in
two measurement items. -/
def overwriteResponse : Response :=
  [("n:1", [[⟨7, "m", .integerValue 1⟩, ⟨7, "m", .integerValue 2⟩],
            [⟨7, "m", .integerValue 3⟩]])]

/-- A response with two keys, two metrics and cells left empty: key
`node1:10` holds `rsrp` at 5 ms and a value of unknown type for `rsrq` at
1.5 s; key `node0:7` holds `rsrp` at 7 ns. -/
def sampleResponse : Response :=
  [("node1:10", [[⟨5000000, "rsrp", .integerValue 5⟩, ⟨1500000000, "rsrq", .unknown⟩]]),
   ("node0:7", [[⟨7, "rsrp", .noValue 0⟩]])]

/-! ## Association lists -/

theorem mapGet_mapSet_self {κ ν : Type} [DecidableEq κ] (k : κ) (v : ν) (m : List (κ × ν)) :
    mapGet k (mapSet k v m) = some v := by
  induction m with
  | nil => simp [mapSet, mapGet]
  | cons e m ih =>
    obtain ⟨k0, v0⟩ := e
    by_cases h : k0 = k
    · simp [mapSet, mapGet, h]
    · simp [mapSet, mapGet, h, ih]

theorem mapGet_mapSet_ne {κ ν : Type} [DecidableEq κ] (k k1 : κ) (v : ν) (m : List (κ × ν))
    (h : k ≠ k1) : mapGet k1 (mapSet k v m) = mapGet k1 m := by
  induction m with
  | nil => simp [mapSet, mapGet, h]
  | cons e m ih =>
    obtain ⟨k0, v0⟩ := e
    by_cases h0 : k0 = k
    · subst h0
      simp [mapSet, mapGet, h]
    · simp only [mapSet, h0, if_false, mapGet, ih]

theorem mapGet_eq_none_iff {κ ν : Type} [DecidableEq κ] (k : κ) (m : List (κ × ν)) :
    mapGet k m = none ↔ k ∉ mapKeys m := by
  induction m with
  | nil => simp [mapGet, mapKeys]
  | cons e m ih =>
    obtain ⟨k0, v0⟩ := e
    by_cases h0 : k0 = k
    · simp [mapGet, mapKeys, h0]
    · have h1 : ¬ k = k0 := fun h => h0 h.symm
      simp only [mapGet, h0, if_false, ih, mapKeys, List.map_cons, List.mem_cons, h1, false_or]

theorem mapKeys_mapSet {κ ν : Type} [DecidableEq κ] (k : κ) (v : ν) (m : List (κ × ν)) :
    mapKeys (mapSet k v m) = if k ∈ mapKeys m then mapKeys m else mapKeys m ++ [k] := by
  induction m with
  | nil => simp [mapSet, mapKeys]
  | cons e m ih =>
    obtain ⟨k0, v0⟩ := e
    by_cases h0 : k0 = k
    · simp [mapSet, mapKeys, h0]
    · have h1 : ¬ k = k0 := fun h => h0 h.symm
      have ih2 := ih
      simp only [mapKeys] at ih2
      simp only [mapSet, h0, if_false, mapKeys, List.map_cons, List.mem_cons, h1, false_or, ih2]
      split <;> simp

theorem mem_mapKeys_mapSet {κ ν : Type} [DecidableEq κ] (k k1 : κ) (v : ν) (m : List (κ × ν)) :
    k1 ∈ mapKeys (mapSet k v m) ↔ k1 ∈ mapKeys m ∨ k1 = k := by
  rw [mapKeys_mapSet]
  split
  · constructor
    · exact Or.inl
    · rintro (h | h)
      · exact h
      · subst h; assumption
  · simp

theorem nodup_mapKeys_mapSet {κ ν : Type} [DecidableEq κ] (k : κ) (v : ν) (m : List (κ × ν))
    (h : (mapKeys m).Nodup) : (mapKeys (mapSet k v m)).Nodup := by
  rw [mapKeys_mapSet]
  split
  · exact h
  · rename_i hk
    exact List.Nodup.append h (List.nodup_singleton k) (by simpa using hk)

/-! ## The aggregation loop -/

theorem aggregate_eq_aggregateList (env : Env) (resp : Response) :
    aggregate env resp = aggregateList env (records resp) := by
  unfold aggregate aggregateList records
  generalize (⟨[], []⟩ : Agg) = st
  induction resp generalizing st with
  | nil => rfl
  | cons entry resp ih =>
    rw [List.foldl_cons, ih, List.flatMap_cons, List.foldl_append]
    congr 1
    generalize entry.2 = items
    induction items generalizing st with
    | nil => rfl
    | cons it items ih2 =>
      rw [List.foldl_cons, ih2, List.flatMap_cons, List.foldl_append, List.foldl_map]

theorem aggregateList_snoc (env : Env) (l : List (String × MeasurementRecord))
    (p : String × MeasurementRecord) :
    aggregateList env (l ++ [p]) = addRecord env p.1 (aggregateList env l) p.2 := by
  simp [aggregateList, List.foldl_append]

theorem lastValue_snoc (l : List (String × MeasurementRecord)) (p : String × MeasurementRecord)
    (k : String) (t : Nat) (m : String) :
    lastValue (l ++ [p]) k t m
      = if atCell k t m p then some p.2.measurementValue else lastValue l k t m := by
  simp [lastValue, List.foldl_append]

/-- The time map of key `k` in `results` (empty when the key is absent). -/
theorem getD_mapGet_ifSet {κ ν : Type} [DecidableEq κ] (k : κ) (d : ν) (m : List (κ × ν)) :
    mapGet k (if (mapGet k m).isNone then mapSet k d m else m)
      = some ((mapGet k m).getD d) := by
  cases h : mapGet k m with
  | none => simp [mapGet_mapSet_self]
  | some v => simp [h]

theorem mapGet_ifSet_ne {κ ν : Type} [DecidableEq κ] (k k1 : κ) (d : ν) (m : List (κ × ν))
    (h : k ≠ k1) :
    mapGet k1 (if (mapGet k m).isNone then mapSet k d m else m) = mapGet k1 m := by
  split
  · exact mapGet_mapSet_ne k k1 d m h
  · rfl

theorem mem_mapKeys_ifSet {κ ν : Type} [DecidableEq κ] (k k1 : κ) (d : ν) (m : List (κ × ν)) :
    k1 ∈ mapKeys (if (mapGet k m).isNone then mapSet k d m else m) ↔ k1 ∈ mapKeys m ∨ k1 = k := by
  split
  · exact mem_mapKeys_mapSet k k1 d m
  · rename_i h
    constructor
    · exact Or.inl
    · rintro (h1 | h1)
      · exact h1
      · subst h1
        by_contra hc
        exact h (by simp [(mapGet_eq_none_iff k1 m).mpr hc])

theorem nodup_mapKeys_ifSet {κ ν : Type} [DecidableEq κ] (k : κ) (d : ν) (m : List (κ × ν))
    (h : (mapKeys m).Nodup) :
    (mapKeys (if (mapGet k m).isNone then mapSet k d m else m)).Nodup := by
  split
  · exact nodup_mapKeys_mapSet k d m h
  · exact h

/-- The time map a key has after one more record. -/
theorem addRecord_times (env : Env) (key : String) (st : Agg) (r : MeasurementRecord)
    (k : String) :
    (mapGet k (addRecord env key st r).results).getD []
      = if key = k then
          mapSet r.timestamp
            (mapSet r.measurementName (sprintValue env r.measurementValue)
              ((mapGet r.timestamp ((mapGet key st.results).getD [])).getD []))
            (if (mapGet r.timestamp ((mapGet key st.results).getD [])).isNone
              then mapSet r.timestamp [] ((mapGet key st.results).getD [])
              else (mapGet key st.results).getD [])
        else (mapGet k st.results).getD [] := by
  unfold addRecord
  by_cases h : key = k
  · subst h
    simp only [mapGet_mapSet_self, getD_mapGet_ifSet, Option.getD_some, if_true]
  · simp only [h, if_false, mapGet_mapSet_ne _ _ _ _ h, mapGet_ifSet_ne _ _ _ _ h]

theorem addRecord_keys (env : Env) (key : String) (st : Agg) (r : MeasurementRecord)
    (k : String) :
    k ∈ mapKeys (addRecord env key st r).results ↔ k ∈ mapKeys st.results ∨ k = key := by
  unfold addRecord
  simp only [mem_mapKeys_mapSet, mem_mapKeys_ifSet, or_self_right]

theorem addRecord_keys_nodup (env : Env) (key : String) (st : Agg) (r : MeasurementRecord)
    (h : (mapKeys st.results).Nodup) : (mapKeys (addRecord env key st r).results).Nodup := by
  unfold addRecord
  exact nodup_mapKeys_mapSet _ _ _ (nodup_mapKeys_ifSet _ _ _ h)

theorem addRecord_attr (env : Env) (key : String) (st : Agg) (r : MeasurementRecord)
    (m : String) :
    m ∈ mapKeys (addRecord env key st r).attr ↔ m ∈ mapKeys st.attr ∨ m = r.measurementName := by
  unfold addRecord
  exact mem_mapKeys_ifSet _ _ _ _

theorem addRecord_attr_nodup (env : Env) (key : String) (st : Agg) (r : MeasurementRecord)
    (h : (mapKeys st.attr).Nodup) : (mapKeys (addRecord env key st r).attr).Nodup := by
  unfold addRecord
  exact nodup_mapKeys_ifSet _ _ _ h


theorem addRecord_cell (env : Env) (key : String) (st : Agg) (r : MeasurementRecord)
    (k : String) (t : Nat) (m : String) :
    mapGet m ((mapGet t ((mapGet k (addRecord env key st r).results).getD [])).getD [])
      = if atCell k t m (key, r) then some (sprintValue env r.measurementValue)
        else mapGet m ((mapGet t ((mapGet k st.results).getD [])).getD []) := by
  rw [addRecord_times]
  by_cases hk : key = k
  · subst hk
    by_cases ht : r.timestamp = t
    · subst ht
      by_cases hm : r.measurementName = m
      · subst hm
        simp [atCell, mapGet_mapSet_self]
      · simp [atCell, hm, mapGet_mapSet_self, mapGet_mapSet_ne _ _ _ _ hm]
    · simp only [if_true, atCell, true_and, ht, false_and, if_false,
        mapGet_mapSet_ne _ _ _ _ ht, mapGet_ifSet_ne _ _ _ _ ht]
  · simp [atCell, hk]

theorem addRecord_times_mem (env : Env) (key : String) (st : Agg) (r : MeasurementRecord)
    (k : String) (t : Nat) :
    t ∈ mapKeys ((mapGet k (addRecord env key st r).results).getD [])
      ↔ t ∈ mapKeys ((mapGet k st.results).getD []) ∨ atRow k t (key, r) := by
  rw [addRecord_times]
  by_cases hk : key = k
  · subst hk
    simp only [if_true, mem_mapKeys_mapSet, mem_mapKeys_ifSet, atRow, true_and]
    constructor
    · rintro ((h | h) | h)
      · exact Or.inl h
      · exact Or.inr h.symm
      · exact Or.inr h.symm
    · rintro (h | h)
      · exact Or.inl (Or.inl h)
      · exact Or.inr h.symm
  · simp [atRow, hk]

theorem addRecord_times_nodup (env : Env) (key : String) (st : Agg) (r : MeasurementRecord)
    (k : String) (h : (mapKeys ((mapGet k st.results).getD [])).Nodup) :
    (mapKeys ((mapGet k (addRecord env key st r).results).getD [])).Nodup := by
  rw [addRecord_times]
  by_cases hk : key = k
  · subst hk
    simp only [if_true]
    exact nodup_mapKeys_mapSet _ _ _ (nodup_mapKeys_ifSet _ _ _ h)
  · simpa [hk] using h

/-! ## What the aggregation holds after a list of records -/

theorem aggregateList_attr (env : Env) (l : List (String × MeasurementRecord)) (m : String) :
    m ∈ mapKeys (aggregateList env l).attr ↔ ∃ p ∈ l, p.2.measurementName = m := by
  induction l using List.reverseRecOn with
  | nil => simp [aggregateList, mapKeys]
  | append_singleton l p ih =>
    rw [aggregateList_snoc, addRecord_attr, ih]
    simp only [List.mem_append, List.mem_singleton]
    constructor
    · rintro (⟨q, hq, h⟩ | h)
      · exact ⟨q, Or.inl hq, h⟩
      · exact ⟨p, Or.inr rfl, h.symm⟩
    · rintro ⟨q, hq | hq, h⟩
      · exact Or.inl ⟨q, hq, h⟩
      · subst hq; exact Or.inr h.symm

theorem aggregateList_attr_nodup (env : Env) (l : List (String × MeasurementRecord)) :
    (mapKeys (aggregateList env l).attr).Nodup := by
  induction l using List.reverseRecOn with
  | nil => simp [aggregateList, mapKeys]
  | append_singleton l p ih =>
    rw [aggregateList_snoc]
    exact addRecord_attr_nodup _ _ _ _ ih

theorem aggregateList_keys (env : Env) (l : List (String × MeasurementRecord)) (k : String) :
    k ∈ mapKeys (aggregateList env l).results ↔ ∃ p ∈ l, p.1 = k := by
  induction l using List.reverseRecOn with
  | nil => simp [aggregateList, mapKeys]
  | append_singleton l p ih =>
    rw [aggregateList_snoc, addRecord_keys, ih]
    simp only [List.mem_append, List.mem_singleton]
    constructor
    · rintro (⟨q, hq, h⟩ | h)
      · exact ⟨q, Or.inl hq, h⟩
      · exact ⟨p, Or.inr rfl, h.symm⟩
    · rintro ⟨q, hq | hq, h⟩
      · exact Or.inl ⟨q, hq, h⟩
      · subst hq; exact Or.inr h.symm

theorem aggregateList_keys_nodup (env : Env) (l : List (String × MeasurementRecord)) :
    (mapKeys (aggregateList env l).results).Nodup := by
  induction l using List.reverseRecOn with
  | nil => simp [aggregateList, mapKeys]
  | append_singleton l p ih =>
    rw [aggregateList_snoc]
    exact addRecord_keys_nodup _ _ _ _ ih

theorem aggregateList_times (env : Env) (l : List (String × MeasurementRecord)) (k : String)
    (t : Nat) :
    t ∈ mapKeys ((mapGet k (aggregateList env l).results).getD []) ↔ ∃ p ∈ l, atRow k t p := by
  induction l using List.reverseRecOn with
  | nil => simp [aggregateList, mapKeys, mapGet]
  | append_singleton l p ih =>
    rw [aggregateList_snoc, addRecord_times_mem, ih]
    simp only [List.mem_append, List.mem_singleton]
    constructor
    · rintro (⟨q, hq, h⟩ | h)
      · exact ⟨q, Or.inl hq, h⟩
      · exact ⟨p, Or.inr rfl, h⟩
    · rintro ⟨q, hq | hq, h⟩
      · exact Or.inl ⟨q, hq, h⟩
      · subst hq; exact Or.inr h

theorem aggregateList_times_nodup (env : Env) (l : List (String × MeasurementRecord))
    (k : String) : (mapKeys ((mapGet k (aggregateList env l).results).getD [])).Nodup := by
  induction l using List.reverseRecOn with
  | nil => simp [aggregateList, mapKeys, mapGet]
  | append_singleton l p ih =>
    rw [aggregateList_snoc]
    exact addRecord_times_nodup _ _ _ _ _ ih

theorem aggregateList_cell (env : Env) (l : List (String × MeasurementRecord)) (k : String)
    (t : Nat) (m : String) :
    mapGet m ((mapGet t ((mapGet k (aggregateList env l).results).getD [])).getD [])
      = (lastValue l k t m).map (sprintValue env) := by
  induction l using List.reverseRecOn with
  | nil => simp [aggregateList, mapGet, lastValue]
  | append_singleton l p ih =>
    rw [aggregateList_snoc, addRecord_cell, ih, lastValue_snoc]
    split <;> rfl

theorem lastValue_eq_none_iff (l : List (String × MeasurementRecord)) (k : String) (t : Nat)
    (m : String) : lastValue l k t m = none ↔ ∀ p ∈ l, ¬ atCell k t m p := by
  induction l using List.reverseRecOn with
  | nil => simp [lastValue]
  | append_singleton l p ih =>
    rw [lastValue_snoc]
    by_cases h : atCell k t m p
    · simp only [h, if_true, reduceCtorEq, false_iff]
      intro hall
      exact hall p (by simp) h
    · simp only [h, if_false, ih, List.mem_append, List.mem_singleton]
      constructor
      · rintro hall q (hq | hq)
        · exact hall q hq
        · subst hq; exact h
      · intro hall q hq
        exact hall q (Or.inl hq)

/-- When every record at a cell carries the same value, that is the value. -/
theorem lastValue_of_forall (l : List (String × MeasurementRecord)) (k : String) (t : Nat)
    (m : String) (v : MeasValue) (hex : ∃ p ∈ l, atCell k t m p)
    (hall : ∀ p ∈ l, atCell k t m p → p.2.measurementValue = v) :
    lastValue l k t m = some v := by
  induction l using List.reverseRecOn with
  | nil => simp at hex
  | append_singleton l p ih =>
    rw [lastValue_snoc]
    by_cases h : atCell k t m p
    · simp [h, hall p (by simp) h]
    · simp only [h, if_false]
      apply ih
      · obtain ⟨q, hq, hc⟩ := hex
        rcases List.mem_append.mp hq with hq | hq
        · exact ⟨q, hq, hc⟩
        · simp only [List.mem_singleton] at hq
          subst hq
          exact absurd hc h
      · intro q hq hc
        exact hall q (List.mem_append.mpr (Or.inl hq)) hc

/-- Every stored value is the print of some record's value. -/
theorem lastValue_mem (l : List (String × MeasurementRecord)) (k : String) (t : Nat)
    (m : String) (v : MeasValue) (h : lastValue l k t m = some v) :
    ∃ p ∈ l, atCell k t m p ∧ p.2.measurementValue = v := by
  induction l using List.reverseRecOn with
  | nil => simp [lastValue] at h
  | append_singleton l p ih =>
    rw [lastValue_snoc] at h
    by_cases hc : atCell k t m p
    · simp only [hc, if_true, Option.some.injEq] at h
      exact ⟨p, by simp, hc, h⟩
    · simp only [hc, if_false] at h
      obtain ⟨q, hq, h2⟩ := ih h
      exact ⟨q, List.mem_append.mpr (Or.inl hq), h2⟩

/-! ## Lines as tab-joined fields -/

theorem intercalate_snoc (sep : List Char) (x : List Char) (l : List (List Char)) (h : l ≠ []) :
    List.intercalate sep (l ++ [x]) = List.intercalate sep l ++ sep ++ x := by
  induction l with
  | nil => exact absurd rfl h
  | cons a l ih =>
    cases l with
    | nil => simp [List.intercalate]
    | cons b l =>
      have ih2 := ih (by simp)
      simp only [List.intercalate, List.cons_append, List.intersperse_cons_cons,
        List.flatten_cons, List.append_assoc] at ih2 ⊢
      rw [ih2]

theorem joinTabs_snoc (fields : List String) (x : String) (h : fields ≠ []) :
    joinTabs (fields ++ [x]) = joinTabs fields ++ "\t" ++ x := by
  apply String.ext
  simp only [joinTabs, List.map_append, List.map_cons, List.map_nil, String.data_append]
  rw [intercalate_snoc _ _ _ (by simpa using h)]

theorem joinTabs_three (a b c : String) :
    joinTabs [a, b, c] = a ++ "\t" ++ b ++ "\t" ++ c := by
  apply String.ext
  simp [joinTabs, List.intercalate, String.data_append]

theorem headerLine_eq_foldl (types : List String) (fields : List String) (h : fields ≠ []) :
    types.foldl (fun header key => header ++ "\t" ++ key) (joinTabs fields)
      = joinTabs (fields ++ types) := by
  induction types generalizing fields with
  | nil => simp
  | cons m types ih =>
    rw [List.foldl_cons, ← joinTabs_snoc _ _ h, ih _ (by simp)]
    simp

theorem headerLine_eq (types : List String) :
    headerLine types = joinTabs ("Node ID" :: "Cell ID" :: "Time" :: types) := by
  have h := headerLine_eq_foldl types ["Node ID", "Cell ID", "Time"] (by simp)
  have h0 : joinTabs ["Node ID", "Cell ID", "Time"] = "Node ID\tCell ID\tTime" := by decide
  rw [h0] at h
  exact h

theorem appendCells_nil (cells : Cells) (start : String) :
    appendCells [] cells start = start := rfl

theorem appendCells_cons (m : String) (types : List String) (cells : Cells) (start : String) :
    appendCells (m :: types) cells start
      = appendCells types cells (start ++ "\t" ++ (mapGet m cells).getD "N/A") := by
  simp only [appendCells, List.foldl_cons]
  cases mapGet m cells <;> rfl

/-- The value columns extend the fields of the row by one field per column. -/
theorem appendCells_eq (types : List String) (cells : Cells) (fields : List String)
    (h : fields ≠ []) :
    appendCells types cells (joinTabs fields)
      = joinTabs (fields ++ types.map (fun m => (mapGet m cells).getD "N/A")) := by
  induction types generalizing fields with
  | nil => simp [appendCells_nil]
  | cons m types ih =>
    rw [appendCells_cons, ← joinTabs_snoc _ _ h, ih _ (by simp)]
    simp

theorem cellText_eq (results : Results) (k : String) (t : Nat) (m : String) :
    cellText results k t m
      = (mapGet m ((mapGet t ((mapGet k results).getD [])).getD [])).getD "N/A" := by
  unfold cellText
  cases mapGet m ((mapGet t ((mapGet k results).getD [])).getD []) <;> rfl

/-- A row that is written has the node, the cell in hexadecimal, the time and
one cell per column, joined by tabs. -/
theorem renderRow_ok (env : Env) (types : List String) (results : Results) (k : String)
    (t : Nat) (line : String)
    (h : renderRow env types k ((mapGet k results).getD []) t = .ok line) :
    ∃ nodeID cellID cellNum, keyIDs k = some (nodeID, cellID) ∧ atoi cellID = .ok cellNum ∧
      line = joinTabs (nodeID :: fmtInt 16 cellNum :: tsFormat env t
        :: types.map (cellText results k t)) := by
  unfold renderRow at h
  cases hk : keyIDs k with
  | none => simp [hk] at h
  | some ids =>
    obtain ⟨nodeID, cellID⟩ := ids
    simp only [hk] at h
    cases ha : atoi cellID with
    | error e => simp [ha] at h
    | ok cellNum =>
      simp only [ha, Except.ok.injEq] at h
      refine ⟨nodeID, cellID, cellNum, rfl, ha, ?_⟩
      have hc : cellText results k t = fun m =>
          (mapGet m ((mapGet t ((mapGet k results).getD [])).getD [])).getD "N/A" :=
        funext (cellText_eq results k t)
      rw [← h, ← joinTabs_three, appendCells_eq _ _ _ (by simp), hc]
      rfl

theorem renderRow_of_ok (env : Env) (types : List String) (results : Results) (k : String)
    (t : Nat) (nodeID cellID : String) (cellNum : Int)
    (hk : keyIDs k = some (nodeID, cellID)) (ha : atoi cellID = .ok cellNum) :
    renderRow env types k ((mapGet k results).getD []) t
      = .ok (joinTabs (nodeID :: fmtInt 16 cellNum :: tsFormat env t
        :: types.map (cellText results k t))) := by
  unfold renderRow
  simp only [hk, ha]
  have hc : cellText results k t = fun m =>
      (mapGet m ((mapGet t ((mapGet k results).getD [])).getD [])).getD "N/A" :=
    funext (cellText_eq results k t)
  rw [← joinTabs_three, appendCells_eq _ _ _ (by simp), hc]
  rfl

/-! ## Sorting -/

theorem strLtList_iff (x y : List Char) : strLtList x y = true ↔ x < y := by
  show _ ↔ List.Lex (· < ·) x y
  induction x generalizing y with
  | nil =>
    cases y with
    | nil => simp [strLtList]
    | cons b bs => simp [strLtList, List.Lex.nil]
  | cons a as ih =>
    cases y with
    | nil => simp [strLtList]
    | cons b bs =>
      simp only [strLtList]
      by_cases h1 : a < b
      · simp only [h1, if_true, true_iff]
        exact List.Lex.rel h1
      · by_cases h2 : b < a
        · simp only [h1, h2, if_false, if_true, Bool.false_eq_true, false_iff]
          intro h
          cases h with
          | cons h => exact lt_irrefl _ h2
          | rel h => exact h1 h
        · have hab : a = b := le_antisymm (not_lt.mp h2) (not_lt.mp h1)
          subst hab
          simp only [h1, if_false, ih, List.Lex.cons_iff]

/-- The order of `sort.Strings` is the lexicographic order of strings. -/
theorem strLe_iff (a b : String) : strLe a b ↔ a ≤ b := by
  unfold strLe
  rw [← not_lt, String.lt_iff_toList_lt, ← strLtList_iff]
  simp [String.toList]

theorem orderedInsert_strLe (a : String) (l : List String) :
    l.orderedInsert strLe a = l.orderedInsert (· ≤ ·) a := by
  induction l with
  | nil => rfl
  | cons b l ih =>
    simp only [List.orderedInsert, strLe_iff, ih]

theorem insertionSort_strLe (l : List String) :
    l.insertionSort strLe = l.insertionSort (· ≤ ·) := by
  induction l with
  | nil => rfl
  | cons b l ih =>
    simp only [List.insertionSort, ih, orderedInsert_strLe]

theorem sorted_insertionSort_strLe (l : List String) (h : l.Nodup) :
    (l.insertionSort strLe).Sorted (· < ·) := by
  rw [insertionSort_strLe]
  exact (List.sorted_insertionSort (· ≤ ·) l).lt_of_le
    ((List.perm_insertionSort (· ≤ ·) l).nodup_iff.mpr h)

theorem mem_insertionSort_strLe (l : List String) (a : String) :
    a ∈ l.insertionSort strLe ↔ a ∈ l := by
  rw [insertionSort_strLe]
  exact List.mem_insertionSort (· ≤ ·)

theorem sorted_sortedTimes (metrics : List (Nat × Cells)) (h : (mapKeys metrics).Nodup) :
    (sortedTimes metrics).Sorted (· < ·) :=
  (List.sorted_insertionSort (· ≤ ·) _).lt_of_le
    ((List.perm_insertionSort (· ≤ ·) _).nodup_iff.mpr h)

theorem mem_sortedTimes (metrics : List (Nat × Cells)) (t : Nat) :
    t ∈ sortedTimes metrics ↔ t ∈ mapKeys metrics :=
  List.mem_insertionSort (· ≤ ·)

/-! ## The order of the rows -/

theorem mem_rowsOf (results : Results) (keys : List String) (k : String) (t : Nat) :
    (k, t) ∈ rowsOf results keys
      ↔ k ∈ keys ∧ t ∈ mapKeys ((mapGet k results).getD []) := by
  simp only [rowsOf, List.mem_flatMap, List.mem_map, Prod.mk.injEq, mem_sortedTimes]
  constructor
  · rintro ⟨k1, hk1, t1, ht1, rfl, rfl⟩
    exact ⟨hk1, ht1⟩
  · rintro ⟨hk, ht⟩
    exact ⟨k, hk, t, ht, rfl, rfl⟩

theorem pairwise_rowsOf (results : Results) (keys : List String)
    (hkeys : keys.Sorted (· < ·))
    (htimes : ∀ k, (mapKeys ((mapGet k results).getD [])).Nodup) :
    (rowsOf results keys).Pairwise rowLt := by
  induction keys with
  | nil => simp [rowsOf]
  | cons k keys ih =>
    have hk := List.sorted_cons.mp hkeys
    simp only [rowsOf, List.flatMap_cons]
    rw [List.pairwise_append]
    refine ⟨?_, ih hk.2, ?_⟩
    · rw [List.pairwise_map]
      exact (sorted_sortedTimes _ (htimes k)).imp (fun h => Or.inr ⟨rfl, h⟩)
    · intro p hp q hq
      simp only [List.mem_map] at hp
      obtain ⟨t, _, rfl⟩ := hp
      obtain ⟨k2, t2⟩ := q
      have hq2 : (k2, t2) ∈ rowsOf results keys := hq
      rw [mem_rowsOf] at hq2
      exact Or.inl (hk.1 k2 hq2.1)

/-! ## The rendering loops -/

/-- The loop over the timestamps of a key writes the rows of a prefix of the
timestamps, the whole list when it does not stop. -/
theorem renderTimes_spec (env : Env) (types : List String) (k : String)
    (metrics : List (Nat × Cells)) (ts : List Nat) :
    ∃ done, List.Forall₂ (fun t line => renderRow env types k metrics t = .ok line) done
        (renderTimes env types k metrics ts).lines ∧
      (((renderTimes env types k metrics ts).failure = none ∧ done = ts) ∨
        ∃ f t rest, (renderTimes env types k metrics ts).failure = some f ∧
          ts = done ++ t :: rest ∧ renderRow env types k metrics t = .error f) := by
  induction ts with
  | nil => exact ⟨[], by simp [renderTimes], Or.inl ⟨rfl, rfl⟩⟩
  | cons t ts ih =>
    cases hrow : renderRow env types k metrics t with
    | error f =>
      refine ⟨[], by simp [renderTimes, hrow], Or.inr ⟨f, t, ts, ?_, rfl, hrow⟩⟩
      simp [renderTimes, hrow]
    | ok line =>
      obtain ⟨done, hdone, hrest⟩ := ih
      refine ⟨t :: done, ?_, ?_⟩
      · simp only [renderTimes, hrow]
        exact List.Forall₂.cons hrow hdone
      · rcases hrest with ⟨hnone, hall⟩ | ⟨f, t2, rest, hf, hts, herr⟩
        · left
          simp only [renderTimes, hrow]
          exact ⟨hnone, by rw [hall]⟩
        · right
          refine ⟨f, t2, rest, ?_, by rw [hts]; rfl, herr⟩
          simp only [renderTimes, hrow]
          exact hf

/-- The loop over the keys writes the rows of a prefix of the (key,
timestamp) pairs, all of them when it does not stop, and stops with the
failure of the first row that cannot be written. -/
theorem renderKeys_spec (env : Env) (types : List String) (results : Results)
    (keys : List String) :
    ∃ done, List.Forall₂
        (fun p line => renderRow env types p.1 ((mapGet p.1 results).getD []) p.2 = .ok line)
        done (renderKeys env types results keys).lines ∧
      (((renderKeys env types results keys).failure = none ∧ done = rowsOf results keys) ∨
        ∃ f p rest, (renderKeys env types results keys).failure = some f ∧
          rowsOf results keys = done ++ p :: rest ∧
          renderRow env types p.1 ((mapGet p.1 results).getD []) p.2 = .error f) := by
  induction keys with
  | nil => exact ⟨[], by simp [renderKeys], Or.inl ⟨rfl, rfl⟩⟩
  | cons k keys ih =>
    obtain ⟨d1, hd1, h1⟩ :=
      renderTimes_spec env types k ((mapGet k results).getD [])
        (sortedTimes ((mapGet k results).getD []))
    have hd1m : List.Forall₂
        (fun p line => renderRow env types p.1 ((mapGet p.1 results).getD []) p.2 = .ok line)
        (d1.map (fun t => (k, t)))
        (renderTimes env types k ((mapGet k results).getD [])
          (sortedTimes ((mapGet k results).getD []))).lines := by
      rw [List.forall₂_map_left_iff]
      exact hd1
    rcases h1 with ⟨hnone, hall⟩ | ⟨f, t, rest, hf, hts, herr⟩
    · obtain ⟨d2, hd2, h2⟩ := ih
      refine ⟨d1.map (fun t => (k, t)) ++ d2, ?_, ?_⟩
      · simp only [renderKeys, hnone]
        exact List.rel_append hd1m hd2
      · rcases h2 with ⟨hnone2, hall2⟩ | ⟨f, p, rest, hf, hrows, herr⟩
        · left
          simp only [renderKeys, hnone]
          refine ⟨hnone2, ?_⟩
          rw [hall, hall2]
          simp [rowsOf]
        · right
          refine ⟨f, p, rest, ?_, ?_, herr⟩
          · simp only [renderKeys, hnone]
            exact hf
          · rw [hall]
            simp only [rowsOf, List.flatMap_cons, List.append_assoc]
            congr 1
    · refine ⟨d1.map (fun t => (k, t)), ?_, Or.inr ⟨f, (k, t), rest.map (fun t => (k, t))
          ++ rowsOf results keys, ?_, ?_, herr⟩⟩
      · simp only [renderKeys, hf]
        exact hd1m
      · simp only [renderKeys, hf]
      · simp only [rowsOf, List.flatMap_cons]
        rw [hts]
        simp

/-! ## Splitting a key -/

theorem splitOn_cons_eq (a : Char) (l : List Char) :
    l.splitOn a = l.takeWhile (fun c => c != a)
      :: (if a ∈ l then ((l.dropWhile (fun c => c != a)).drop 1).splitOn a else []) := by
  induction l with
  | nil => simp
  | cons b l ih =>
    unfold List.splitOn at ih ⊢
    rw [List.splitOnP_cons]
    by_cases h : b = a
    · subst h
      simp
    · have h2 : ¬ a = b := fun e => h e.symm
      have h3 : (b != a) = true := by simpa using h
      have h4 : (b == a) = false := by simpa using h
      rw [ih]
      simp only [h4, Bool.false_eq_true, if_false, List.modifyHead_cons, List.mem_cons, h2,
        false_or, List.takeWhile_cons, h3, if_true, List.dropWhile_cons]

theorem splitOn_of_not_mem (a : Char) (l : List Char) (h : a ∉ l) : l.splitOn a = [l] := by
  rw [splitOn_cons_eq, if_neg h]
  congr 1
  rw [List.takeWhile_eq_self_iff]
  intro c hc
  have : c ≠ a := fun e => h (e ▸ hc)
  simpa using this

/-- A key without a colon has no second piece. -/
theorem keyIDs_of_no_colon (k : String) (h : ':' ∉ k.data) : keyIDs k = none := by
  unfold keyIDs splitKey
  rw [splitOn_of_not_mem _ _ h]
  rfl

/-- A key with a colon splits into the text before its first colon and the
text between that colon and the next. -/
theorem keyIDs_of_colon (k : String) (h : ':' ∈ k.data) :
    keyIDs k = some (keyNode k, keySecond k) := by
  unfold keyIDs splitKey
  rw [splitOn_cons_eq, if_pos h, splitOn_cons_eq]
  rfl

theorem parseUintLoop_digits (l : List Char) (n m : Nat) (h : parseUintLoop l n = .ok m) :
    ∀ c ∈ l, c.isDigit = true := by
  induction l generalizing n with
  | nil => simp
  | cons c l ih =>
    unfold parseUintLoop at h
    by_cases hd : c.isDigit = true
    · simp only [hd, if_true] at h
      split at h
      · cases h
      · split at h
        · cases h
        · intro x hx
          rcases List.mem_cons.mp hx with rfl | hx
          · exact hd
          · exact ih _ h x hx
    · simp [hd] at h

/-- The function `Atoi` on a text with first character `c`. -/
theorem atoi_cons (s : String) (c : Char) (cs : List Char) (hs : s.data = c :: cs) :
    atoi s =
      if (if c = '+' ∨ c = '-' then cs else c :: cs) = [] then .error ⟨s, .invalid⟩
      else
        match parseUintLoop (if c = '+' ∨ c = '-' then cs else c :: cs) 0 with
        | .error e => .error ⟨s, e⟩
        | .ok un =>
          if ¬ c = '-' ∧ un ≥ 2 ^ 63 then .error ⟨s, .outOfRange⟩
          else if c = '-' ∧ un > 2 ^ 63 then .error ⟨s, .outOfRange⟩
          else .ok (if c = '-' then - (un : Int) else (un : Int)) := by
  unfold atoi
  simp only [hs]

/-- A text accepted by `Atoi` holds a sign and digits only. -/
theorem atoi_ok_chars (s : String) (v : Int) (h : atoi s = .ok v) :
    ∀ c ∈ s.data, c = '+' ∨ c = '-' ∨ c.isDigit = true := by
  cases hs : s.data with
  | nil => simp
  | cons c cs =>
    rw [atoi_cons s c cs hs] at h
    by_cases hb : (if c = '+' ∨ c = '-' then cs else c :: cs) = []
    · rw [if_pos hb] at h
      cases h
    · rw [if_neg hb] at h
      cases hp : parseUintLoop (if c = '+' ∨ c = '-' then cs else c :: cs) 0 with
      | error e =>
        rw [hp] at h
        cases h
      | ok un =>
        have hd := parseUintLoop_digits _ _ _ hp
        intro x hx
        by_cases hc : c = '+' ∨ c = '-'
        · rw [if_pos hc] at hd
          rcases List.mem_cons.mp hx with rfl | hx
          · rcases hc with hc | hc
            · exact Or.inl hc
            · exact Or.inr (Or.inl hc)
          · exact Or.inr (Or.inr (hd x hx))
        · rw [if_neg hc] at hd
          exact Or.inr (Or.inr (hd x hx))

theorem atoi_ok_no_colon (s : String) (v : Int) (h : atoi s = .ok v) : ':' ∉ s.data := by
  intro hc
  rcases atoi_ok_chars s v h _ hc with h1 | h1 | h1
  · exact absurd h1 (by decide)
  · exact absurd h1 (by decide)
  · exact absurd h1 (by decide)

theorem atoi_ok_no_tab (s : String) (v : Int) (h : atoi s = .ok v) : '\t' ∉ s.data := by
  intro hc
  rcases atoi_ok_chars s v h _ hc with h1 | h1 | h1
  · exact absurd h1 (by decide)
  · exact absurd h1 (by decide)
  · exact absurd h1 (by decide)

theorem keySecond_of_no_colon (k : String) (h : ':' ∉ (keyCell k).data) :
    keySecond k = keyCell k := by
  unfold keySecond keyNode
  have : (keyCell k).data.takeWhile (fun c => c != ':') = (keyCell k).data := by
    rw [List.takeWhile_eq_self_iff]
    intro c hc
    have : c ≠ ':' := fun e => h (e ▸ hc)
    simpa using this
  rw [this]

/-- For a well-formed key the handler parses the text after the first colon. -/
theorem keyIDs_of_wellFormed (k : String) (h : wellFormedKey k) :
    keyIDs k = some (keyNode k, keyCell k) := by
  obtain ⟨hc, hv⟩ := h
  cases ha : atoi (keyCell k) with
  | error e => simp [ha, Except.isOk, Except.toBool] at hv
  | ok v => rw [keyIDs_of_colon k hc, keySecond_of_no_colon k (atoi_ok_no_colon _ v ha)]

/-! ## Digits -/

theorem toDigitsCore_eq (b : Nat) (hb : 2 ≤ b) (fuel : Nat) :
    ∀ (n : Nat) (ds : List Char), n < fuel →
      Nat.toDigitsCore b fuel n ds = Nat.toDigitsCore b (n + 1) n [] ++ ds := by
  induction fuel using Nat.strong_induction_on with
  | _ fuel ih =>
    intro n ds hn
    cases fuel with
    | zero => omega
    | succ fuel =>
      by_cases h0 : n / b = 0
      · simp [Nat.toDigitsCore, h0]
      · have hlt : n / b < n := Nat.div_lt_self (by
          rcases Nat.eq_zero_or_pos n with h | h
          · subst h; simp at h0
          · exact h) hb
        simp only [Nat.toDigitsCore, h0, if_false]
        rw [ih fuel (by omega) (n / b) _ (by omega), ih n (by omega) (n / b) _ hlt]
        simp

/-- The digits of a number: one digit below the base, otherwise the digits
of the quotient followed by the last digit. -/
theorem toDigits_eq (b : Nat) (hb : 2 ≤ b) (n : Nat) :
    Nat.toDigits b n
      = if n < b then [Nat.digitChar n] else Nat.toDigits b (n / b) ++ [Nat.digitChar (n % b)] := by
  have key : Nat.toDigits b n = Nat.toDigitsCore b (n + 1) n [] := rfl
  rw [key, Nat.toDigitsCore]
  by_cases h : n < b
  · simp [h, Nat.div_eq_of_lt h, Nat.mod_eq_of_lt h]
  · have h0 : ¬ n / b = 0 := by
      intro h0
      exact h ((Nat.div_eq_zero_iff (by omega)).mp h0)
    have hlt : n / b < n := Nat.div_lt_self (by omega) (by omega)
    simp only [h0, if_false, h]
    rw [toDigitsCore_eq b hb n (n / b) _ hlt]
    rfl

theorem toDigits_chars (b : Nat) (hb : 2 ≤ b) (n : Nat) :
    ∀ c ∈ Nat.toDigits b n, ∃ d, d < b ∧ c = Nat.digitChar d := by
  induction n using Nat.strong_induction_on with
  | _ n ih =>
    rw [toDigits_eq b hb n]
    by_cases h : n < b
    · simp only [h, if_true, List.mem_singleton]
      intro c hc
      exact ⟨n, h, hc⟩
    · simp only [h, if_false, List.mem_append, List.mem_singleton]
      intro c hc
      rcases hc with hc | hc
      · exact ih (n / b) (Nat.div_lt_self (by omega) (by omega)) c hc
      · exact ⟨n % b, Nat.mod_lt _ (by omega), hc⟩

theorem digitChar_ne_tab : ∀ d < 16, Nat.digitChar d ≠ '\t' := by
  decide

theorem toDigits_no_tab (b : Nat) (hb : 2 ≤ b) (hb2 : b ≤ 16) (n : Nat) :
    '\t' ∉ Nat.toDigits b n := by
  intro h
  obtain ⟨d, hlt, hd⟩ := toDigits_chars b hb n _ h
  exact digitChar_ne_tab d (by omega) hd.symm

theorem fmtInt_no_tab (b : Nat) (hb : 2 ≤ b) (hb2 : b ≤ 16) (v : Int) : '\t' ∉ (fmtInt b v).data := by
  unfold fmtInt
  split
  · simp only [List.mem_cons, not_or]
    exact ⟨by decide, toDigits_no_tab b hb hb2 _⟩
  · exact toDigits_no_tab b hb hb2 _

theorem fmtD02_no_tab (n : Nat) : '\t' ∉ (fmtD02 n).data := by
  unfold fmtD02
  simp only
  split
  · simp only [List.mem_cons, not_or]
    exact ⟨by decide, toDigits_no_tab 10 (by decide) (by decide) _⟩
  · exact toDigits_no_tab 10 (by decide) (by decide) _

theorem tsFormat_no_tab (env : Env) (t : Nat) : '\t' ∉ (tsFormat env t).data := by
  unfold tsFormat
  simp only [String.data_append, List.mem_append, not_or]
  refine ⟨⟨⟨⟨⟨⟨fmtD02_no_tab _, by decide⟩, fmtD02_no_tab _⟩, by decide⟩, fmtD02_no_tab _⟩,
    by decide⟩, fmtInt_no_tab 10 (by decide) (by decide) _⟩

theorem sprintValue_no_tab (env : Env) (hfloat : ∀ bits, '\t' ∉ (env.fmtFloat bits).data)
    (v : MeasValue) : '\t' ∉ (sprintValue env v).data := by
  cases v with
  | integerValue v => exact fmtInt_no_tab 10 (by decide) (by decide) v
  | realValue bits => exact hfloat bits
  | noValue v => exact fmtInt_no_tab 10 (by decide) (by decide) v
  | unknown =>
    show '\t' ∉ "<nil>".data
    decide

/-! ## The table of a response -/

theorem columns_sorted (env : Env) (resp : Response) : (columns env resp).Sorted (· < ·) := by
  unfold columns sortedTypes
  rw [aggregate_eq_aggregateList]
  exact sorted_insertionSort_strLe _ (aggregateList_attr_nodup env _)

theorem mem_columns (env : Env) (resp : Response) (m : String) :
    m ∈ columns env resp ↔ m ∈ metricNames resp := by
  unfold columns sortedTypes metricNames
  rw [mem_insertionSort_strLe, aggregate_eq_aggregateList, aggregateList_attr]
  simp only [List.mem_map]

theorem columns_length (env : Env) (resp : Response) :
    (columns env resp).length = (metricNames resp).dedup.length := by
  apply List.Perm.length_eq
  rw [List.perm_ext_iff_of_nodup (columns_sorted env resp).nodup (List.nodup_dedup _)]
  intro m
  rw [mem_columns, List.mem_dedup]

theorem sortedKeys_sorted (env : Env) (resp : Response) :
    (sortedKeys (aggregate env resp).results).Sorted (· < ·) := by
  unfold sortedKeys
  rw [aggregate_eq_aggregateList]
  exact sorted_insertionSort_strLe _ (aggregateList_keys_nodup env _)

/-- The rows the loops visit are the (key, timestamp) pairs that hold a
record. -/
theorem mem_rows (env : Env) (resp : Response) (k : String) (t : Nat) :
    (k, t) ∈ rowsOf (aggregate env resp).results (sortedKeys (aggregate env resp).results)
      ↔ ∃ p ∈ records resp, atRow k t p := by
  rw [mem_rowsOf]
  unfold sortedKeys
  rw [mem_insertionSort_strLe, aggregate_eq_aggregateList, aggregateList_keys,
    aggregateList_times]
  constructor
  · rintro ⟨_, h⟩
    exact h
  · rintro ⟨p, hp, h⟩
    exact ⟨⟨p, hp, h.1⟩, p, hp, h⟩

theorem rows_pairwise (env : Env) (resp : Response) :
    (rowsOf (aggregate env resp).results (sortedKeys (aggregate env resp).results)).Pairwise
      rowLt := by
  apply pairwise_rowsOf _ _ (sortedKeys_sorted env resp)
  intro k
  rw [aggregate_eq_aggregateList]
  exact aggregateList_times_nodup env _ k

theorem rowLt_irrefl (p : String × Nat) : ¬ rowLt p p := by
  rintro (h | ⟨_, h⟩)
  · exact lt_irrefl _ h
  · exact lt_irrefl _ h

theorem rows_nodup (env : Env) (resp : Response) :
    (rowsOf (aggregate env resp).results (sortedKeys (aggregate env resp).results)).Nodup := by
  apply (rows_pairwise env resp).imp
  intro p q h e
  subst e
  exact rowLt_irrefl p h

/-- A cell of the table is the marker exactly when no record is stored at
it. -/
theorem cellText_of_no_record (env : Env) (resp : Response) (k : String) (t : Nat) (m : String)
    (h : ∀ p ∈ records resp, ¬ atCell k t m p) :
    cellText (aggregate env resp).results k t m = "N/A" := by
  rw [cellText_eq, aggregate_eq_aggregateList, aggregateList_cell,
    (lastValue_eq_none_iff _ k t m).mpr h]
  rfl

/-- A cell of the table is the marker or the print of the value of a record
stored at it. -/
theorem cellText_cases (env : Env) (resp : Response) (k : String) (t : Nat) (m : String) :
    cellText (aggregate env resp).results k t m = "N/A" ∨
      ∃ p ∈ records resp, atCell k t m p ∧
        cellText (aggregate env resp).results k t m = sprintValue env p.2.measurementValue := by
  rw [cellText_eq, aggregate_eq_aggregateList, aggregateList_cell]
  cases h : lastValue (records resp) k t m with
  | none => exact Or.inl rfl
  | some v =>
    obtain ⟨p, hp, hc, hv⟩ := lastValue_mem _ _ _ _ _ h
    exact Or.inr ⟨p, hp, hc, by rw [hv]; rfl⟩

theorem keyIDs_some (k nodeID cellID : String) (h : keyIDs k = some (nodeID, cellID)) :
    ':' ∈ k.data ∧ nodeID = keyNode k ∧ cellID = keySecond k := by
  by_cases hc : ':' ∈ k.data
  · rw [keyIDs_of_colon k hc] at h
    simp only [Option.some.injEq, Prod.mk.injEq] at h
    exact ⟨hc, h.1.symm, h.2.symm⟩
  · rw [keyIDs_of_no_colon k hc] at h
    cases h

/-- The shape of a written row: node, cell in hexadecimal, time, and one cell
per column. -/
theorem rowOf_ok (env : Env) (resp : Response) (k : String) (t : Nat) (line : String)
    (h : rowOf env resp k t = .ok line) :
    ':' ∈ k.data ∧ ∃ n, atoi (keySecond k) = .ok n ∧
      line = joinTabs (keyNode k :: fmtInt 16 n :: tsFormat env t
        :: (columns env resp).map (cellText (aggregate env resp).results k t)) := by
  obtain ⟨nodeID, cellID, n, hk, ha, hl⟩ := renderRow_ok env _ _ k t line h
  obtain ⟨hc, h1, h2⟩ := keyIDs_some k nodeID cellID hk
  subst h1 h2
  exact ⟨hc, n, ha, hl⟩

theorem hexOfCell_ok (cell : String) (n : Int) (h : atoi cell = .ok n) :
    hexOfCell cell = fmtInt 16 n := by
  unfold hexOfCell
  rw [h]

/-- The row of a well-formed key is written. -/
theorem rowOf_wellFormed (env : Env) (resp : Response) (k : String) (t : Nat)
    (h : wellFormedKey k) :
    rowOf env resp k t = .ok (joinTabs (keyNode k :: hexOfCell (keyCell k) :: tsFormat env t
        :: (columns env resp).map (cellText (aggregate env resp).results k t))) := by
  have hk := keyIDs_of_wellFormed k h
  cases ha : atoi (keyCell k) with
  | error e =>
    have := h.2
    simp [ha, Except.isOk, Except.toBool] at this
  | ok n =>
    rw [hexOfCell_ok _ n ha]
    exact renderRow_of_ok env _ _ k t _ _ n hk ha

/-- The data rows and the way the handler ends do not depend on the header
flag; the header, when written, is the first line. -/
theorem run_eq (env : Env) (noHeaders : Bool) (resp : Response) :
    runListMetricsCommand env noHeaders resp
      = ⟨(if noHeaders then [] else [headerLine (columns env resp)])
          ++ (runListMetricsCommand env true resp).lines,
         (runListMetricsCommand env true resp).failure⟩ := by
  cases noHeaders <;> rfl

/-- The data rows are the rows of a prefix of the (key, timestamp) pairs in
row order: all of them when the handler returns `nil`, and up to the first
row that cannot be written otherwise. -/
theorem run_rows (env : Env) (resp : Response) :
    ∃ done, List.Forall₂ (fun p line => rowOf env resp p.1 p.2 = .ok line) done
        (runListMetricsCommand env true resp).lines ∧
      (((runListMetricsCommand env true resp).failure = none ∧
          done = rowsOf (aggregate env resp).results (sortedKeys (aggregate env resp).results)) ∨
        ∃ f p rest, (runListMetricsCommand env true resp).failure = some f ∧
          rowsOf (aggregate env resp).results (sortedKeys (aggregate env resp).results)
            = done ++ p :: rest ∧
          rowOf env resp p.1 p.2 = .error f) := by
  obtain ⟨done, h1, h2⟩ := renderKeys_spec env (columns env resp) (aggregate env resp).results
    (sortedKeys (aggregate env resp).results)
  exact ⟨done, h1, h2⟩

theorem forall₂_map_of_forall {α β : Type} (r : α → β → Prop) (f : α → β) (l : List α)
    (l2 : List β) (h : List.Forall₂ r l l2) (hf : ∀ a ∈ l, ∀ b, r a b → b = f a) :
    l2 = l.map f := by
  induction h with
  | nil => rfl
  | cons hab _ ih =>
    rw [List.map_cons, hf _ (List.mem_cons_self _ _) _ hab,
      ih (fun a ha b hr => hf a (List.mem_cons_of_mem _ ha) b hr)]

/-- With well-formed keys the handler returns `nil` and writes the row of
every (key, timestamp) pair. -/
theorem run_wellFormed (env : Env) (resp : Response)
    (hkeys : ∀ p ∈ records resp, wellFormedKey p.1) :
    (runListMetricsCommand env true resp).failure = none ∧
    (runListMetricsCommand env true resp).lines
      = (rowsOf (aggregate env resp).results (sortedKeys (aggregate env resp).results)).map
          (fun kt => joinTabs (keyNode kt.1 :: hexOfCell (keyCell kt.1) :: tsFormat env kt.2
            :: (columns env resp).map (cellText (aggregate env resp).results kt.1 kt.2))) := by
  have hwf : ∀ p ∈ rowsOf (aggregate env resp).results
      (sortedKeys (aggregate env resp).results), wellFormedKey p.1 := by
    rintro ⟨k, t⟩ hp
    obtain ⟨q, hq, hrow⟩ := (mem_rows env resp k t).mp hp
    have := hkeys q hq
    rw [hrow.1] at this
    exact this
  obtain ⟨done, h1, h2⟩ := run_rows env resp
  rcases h2 with ⟨hnone, hall⟩ | ⟨f, p, rest, _, hrows, herr⟩
  · refine ⟨hnone, ?_⟩
    subst hall
    apply forall₂_map_of_forall _ _ _ _ h1
    intro a ha b hab
    rw [rowOf_wellFormed env resp a.1 a.2 (hwf a ha)] at hab
    exact (Except.ok.inj hab).symm
  · have hp : p ∈ rowsOf (aggregate env resp).results
        (sortedKeys (aggregate env resp).results) := by
      rw [hrows]
      simp
    rw [rowOf_wellFormed env resp p.1 p.2 (hwf p hp)] at herr
    cases herr

theorem tabFields_joinTabs (fields : List String) (hne : fields ≠ [])
    (h : ∀ f ∈ fields, '\t' ∉ f.data) : tabFields (joinTabs fields) = fields := by
  unfold tabFields joinTabs
  simp only
  rw [List.splitOn_intercalate]
  · rw [List.map_map]
    conv_rhs => rw [← List.map_id fields]
    rfl
  · intro l hl
    obtain ⟨f, hf, rfl⟩ := List.mem_map.mp hl
    exact h f hf
  · simpa using hne

theorem cellText_no_tab (env : Env) (hfloat : ∀ bits, '\t' ∉ (env.fmtFloat bits).data)
    (resp : Response) (k : String) (t : Nat) (m : String) :
    '\t' ∉ (cellText (aggregate env resp).results k t m).data := by
  rcases cellText_cases env resp k t m with h | ⟨p, _, _, h⟩
  · rw [h]
    decide
  · rw [h]
    exact sprintValue_no_tab env hfloat _

/-! ## The claims -/

/-- C1: when every key that holds a record has the form node:cell with a cell
accepted by `Atoi`, the data rows are the rows of an enumeration without
repetition of exactly the (key, timestamp) pairs that hold a record, and the
cell of the row of (key, timestamp) under a metric with no record at that key,
timestamp and name is the text N/A. -/
theorem one_row_per_key_and_time (env : Env) (resp : Response)
    (hkeys : ∀ p ∈ records resp, wellFormedKey p.1) :
    ∃ idx : List (String × Nat),
      idx.Nodup ∧
      (∀ k t, (k, t) ∈ idx ↔ ∃ p ∈ records resp, atRow k t p) ∧
      (runListMetricsCommand env true resp).lines
        = idx.map (fun kt => joinTabs (keyNode kt.1 :: hexOfCell (keyCell kt.1)
            :: tsFormat env kt.2
            :: (columns env resp).map (cellText (aggregate env resp).results kt.1 kt.2))) ∧
      (runListMetricsCommand env false resp).lines
        = headerLine (columns env resp)
          :: idx.map (fun kt => joinTabs (keyNode kt.1 :: hexOfCell (keyCell kt.1)
            :: tsFormat env kt.2
            :: (columns env resp).map (cellText (aggregate env resp).results kt.1 kt.2))) ∧
      ∀ k t m, (∀ p ∈ records resp, ¬ atCell k t m p) →
        cellText (aggregate env resp).results k t m = "N/A" := by
  refine ⟨rowsOf (aggregate env resp).results (sortedKeys (aggregate env resp).results),
    rows_nodup env resp, mem_rows env resp, (run_wellFormed env resp hkeys).2, ?_,
    cellText_of_no_record env resp⟩
  rw [run_eq env false resp, (run_wellFormed env resp hkeys).2]
  rfl

theorem one_row_per_key_and_time_witness :
    (∀ p ∈ records sampleResponse, wellFormedKey p.1) ∧
    ∃ idx : List (String × Nat),
      idx.Nodup ∧
      (∀ k t, (k, t) ∈ idx ↔ ∃ p ∈ records sampleResponse, atRow k t p) ∧
      (runListMetricsCommand utcEnv true sampleResponse).lines
        = idx.map (fun kt => joinTabs (keyNode kt.1 :: hexOfCell (keyCell kt.1)
            :: tsFormat utcEnv kt.2
            :: (columns utcEnv sampleResponse).map
                (cellText (aggregate utcEnv sampleResponse).results kt.1 kt.2))) ∧
      (runListMetricsCommand utcEnv false sampleResponse).lines
        = headerLine (columns utcEnv sampleResponse)
          :: idx.map (fun kt => joinTabs (keyNode kt.1 :: hexOfCell (keyCell kt.1)
            :: tsFormat utcEnv kt.2
            :: (columns utcEnv sampleResponse).map
                (cellText (aggregate utcEnv sampleResponse).results kt.1 kt.2))) ∧
      ∀ k t m, (∀ p ∈ records sampleResponse, ¬ atCell k t m p) →
        cellText (aggregate utcEnv sampleResponse).results k t m = "N/A" :=
  ⟨by decide, one_row_per_key_and_time utcEnv sampleResponse (by decide)⟩

/-- C2: when the handler returns `nil`, the metric columns are in strictly
ascending lexicographic order, and the data rows are the rows of (key,
timestamp) pairs in ascending order of key and, within a key, strictly
ascending order of timestamp; each row lists its cells in column order. -/
theorem columns_and_rows_sorted (env : Env) (noHeaders : Bool) (resp : Response)
    (hok : (runListMetricsCommand env noHeaders resp).failure = none) :
    (columns env resp).Sorted (· < ·) ∧
    ∃ idx : List (String × Nat),
      idx.Pairwise rowLt ∧
      (runListMetricsCommand env noHeaders resp).lines
        = (if noHeaders then []
            else [joinTabs ("Node ID" :: "Cell ID" :: "Time" :: columns env resp)])
          ++ (runListMetricsCommand env true resp).lines ∧
      List.Forall₂
        (fun kt line => ∃ n, atoi (keySecond kt.1) = .ok n ∧
          line = joinTabs (keyNode kt.1 :: fmtInt 16 n :: tsFormat env kt.2
            :: (columns env resp).map (cellText (aggregate env resp).results kt.1 kt.2)))
        idx (runListMetricsCommand env true resp).lines := by
  refine ⟨columns_sorted env resp, ?_⟩
  rw [run_eq env noHeaders resp] at hok
  obtain ⟨done, h1, h2⟩ := run_rows env resp
  rcases h2 with ⟨_, hall⟩ | ⟨f, p, rest, hf, _, _⟩
  · refine ⟨done, ?_, ?_, ?_⟩
    · rw [hall]
      exact rows_pairwise env resp
    · rw [run_eq env noHeaders resp, headerLine_eq]
    · exact h1.imp (fun _ _ h => (rowOf_ok env resp _ _ _ h).2)
  · rw [hf] at hok
    cases hok

theorem columns_and_rows_sorted_witness :
    (runListMetricsCommand utcEnv false sampleResponse).failure = none ∧
    ((columns utcEnv sampleResponse).Sorted (· < ·) ∧
    ∃ idx : List (String × Nat),
      idx.Pairwise rowLt ∧
      (runListMetricsCommand utcEnv false sampleResponse).lines
        = (if false = true then []
            else [joinTabs ("Node ID" :: "Cell ID" :: "Time" :: columns utcEnv sampleResponse)])
          ++ (runListMetricsCommand utcEnv true sampleResponse).lines ∧
      List.Forall₂
        (fun kt line => ∃ n, atoi (keySecond kt.1) = .ok n ∧
          line = joinTabs (keyNode kt.1 :: fmtInt 16 n :: tsFormat utcEnv kt.2
            :: (columns utcEnv sampleResponse).map
                (cellText (aggregate utcEnv sampleResponse).results kt.1 kt.2)))
        idx (runListMetricsCommand utcEnv true sampleResponse).lines) :=
  ⟨by decide, columns_and_rows_sorted utcEnv false sampleResponse (by decide)⟩

theorem forall₂_right_mem {α β : Type} (r : α → β → Prop) (l : List α) (l2 : List β)
    (h : List.Forall₂ r l l2) : ∀ b ∈ l2, ∃ a ∈ l, r a b := by
  induction h with
  | nil => simp
  | cons hab _ ih =>
    intro b hb
    rcases List.mem_cons.mp hb with rfl | hb
    · exact ⟨_, List.mem_cons_self _ _, hab⟩
    · obtain ⟨a, ha, hr⟩ := ih b hb
      exact ⟨a, List.mem_cons_of_mem _ ha, hr⟩

/-- Every data row written, also before a failure, is the row of a (key,
timestamp) pair that holds a record. -/
theorem run_line_mem (env : Env) (resp : Response) (line : String)
    (h : line ∈ (runListMetricsCommand env true resp).lines) :
    ∃ k t, (∃ p ∈ records resp, atRow k t p) ∧ rowOf env resp k t = .ok line := by
  obtain ⟨done, h1, h2⟩ := run_rows env resp
  obtain ⟨⟨k, t⟩, hmem, hrow⟩ := forall₂_right_mem _ _ _ h1 line h
  refine ⟨k, t, ?_, hrow⟩
  rw [← mem_rows env resp k t]
  rcases h2 with ⟨_, hall⟩ | ⟨f, p, rest, _, hrows, _⟩
  · rw [← hall]
    exact hmem
  · rw [hrows]
    exact List.mem_append_left _ hmem

/-- C3: the metric columns are the metric names of the records, sorted and
without duplicates, so as many as there are distinct names; and when the
node part of the keys and the printed floats hold no tab, every data row
written splits at its tabs into exactly 3 + N fields: node, cell, time, and
for each column the marker N/A or the print of a value recorded at that key,
timestamp and name. -/
theorem table_rectangular (env : Env) (resp : Response)
    (hnode : ∀ p ∈ records resp, '\t' ∉ (keyNode p.1).data)
    (hfloat : ∀ bits, '\t' ∉ (env.fmtFloat bits).data) :
    (columns env resp).Sorted (· < ·) ∧
    (∀ m, m ∈ columns env resp ↔ ∃ p ∈ records resp, p.2.measurementName = m) ∧
    (columns env resp).length = (metricNames resp).dedup.length ∧
    ∀ line ∈ (runListMetricsCommand env true resp).lines,
      (tabFields line).length = 3 + (metricNames resp).dedup.length ∧
      ∃ k t n, atoi (keySecond k) = .ok n ∧
        tabFields line = keyNode k :: fmtInt 16 n :: tsFormat env t
          :: (columns env resp).map (cellText (aggregate env resp).results k t) ∧
        ∀ m, cellText (aggregate env resp).results k t m = "N/A" ∨
          ∃ p ∈ records resp, atCell k t m p ∧
            cellText (aggregate env resp).results k t m
              = sprintValue env p.2.measurementValue := by
  refine ⟨columns_sorted env resp, ?_, columns_length env resp, ?_⟩
  · intro m
    rw [mem_columns]
    simp [metricNames]
  · intro line hline
    obtain ⟨k, t, ⟨p, hp, hrow⟩, hok⟩ := run_line_mem env resp line hline
    obtain ⟨_, n, hn, hl⟩ := rowOf_ok env resp k t line hok
    have hk : '\t' ∉ (keyNode k).data := by
      have := hnode p hp
      rw [hrow.1] at this
      exact this
    have hfields : tabFields line = keyNode k :: fmtInt 16 n :: tsFormat env t
        :: (columns env resp).map (cellText (aggregate env resp).results k t) := by
      rw [hl]
      apply tabFields_joinTabs _ (by simp)
      intro f hf
      simp only [List.mem_cons, List.mem_map] at hf
      rcases hf with rfl | rfl | rfl | ⟨m, _, rfl⟩
      · exact hk
      · exact fmtInt_no_tab 16 (by decide) (by decide) n
      · exact tsFormat_no_tab env t
      · exact cellText_no_tab env hfloat resp k t m
    refine ⟨?_, k, t, n, hn, hfields, cellText_cases env resp k t⟩
    rw [hfields, ← columns_length env resp]
    simp only [List.length_cons, List.length_map]
    omega

theorem table_rectangular_witness :
    (∀ p ∈ records sampleResponse, '\t' ∉ (keyNode p.1).data) ∧
    (∀ bits, '\t' ∉ (utcEnv.fmtFloat bits).data) ∧
    ((columns utcEnv sampleResponse).Sorted (· < ·) ∧
    (∀ m, m ∈ columns utcEnv sampleResponse
      ↔ ∃ p ∈ records sampleResponse, p.2.measurementName = m) ∧
    (columns utcEnv sampleResponse).length = (metricNames sampleResponse).dedup.length ∧
    ∀ line ∈ (runListMetricsCommand utcEnv true sampleResponse).lines,
      (tabFields line).length = 3 + (metricNames sampleResponse).dedup.length ∧
      ∃ k t n, atoi (keySecond k) = .ok n ∧
        tabFields line = keyNode k :: fmtInt 16 n :: tsFormat utcEnv t
          :: (columns utcEnv sampleResponse).map
              (cellText (aggregate utcEnv sampleResponse).results k t) ∧
        ∀ m, cellText (aggregate utcEnv sampleResponse).results k t m = "N/A" ∨
          ∃ p ∈ records sampleResponse, atCell k t m p ∧
            cellText (aggregate utcEnv sampleResponse).results k t m
              = sprintValue utcEnv p.2.measurementValue) :=
  ⟨by decide, fun _ => by show '\t' ∉ "float".data; decide,
    table_rectangular utcEnv sampleResponse (by decide)
      (fun _ => by show '\t' ∉ "float".data; decide)⟩

/-- C4: with headers enabled the first line written is the header, and the
header is the tab-joined list of N + 3 columns, N the number of distinct
metric names: the three fixed titles followed by the metric names, sorted;
when no metric name holds a tab, splitting the header at its tabs gives back
these N + 3 columns. -/
theorem header_has_three_plus_n_columns (env : Env) (resp : Response) :
    (runListMetricsCommand env false resp).lines.head?
      = some (joinTabs ("Node ID" :: "Cell ID" :: "Time" :: columns env resp)) ∧
    ("Node ID" :: "Cell ID" :: "Time" :: columns env resp).length
      = (metricNames resp).dedup.length + 3 ∧
    (columns env resp).Sorted (· < ·) ∧
    (∀ m, m ∈ columns env resp ↔ m ∈ metricNames resp) ∧
    ((∀ m ∈ metricNames resp, '\t' ∉ m.data) →
      tabFields (joinTabs ("Node ID" :: "Cell ID" :: "Time" :: columns env resp))
        = "Node ID" :: "Cell ID" :: "Time" :: columns env resp) := by
  refine ⟨?_, ?_, columns_sorted env resp, mem_columns env resp, ?_⟩
  · rw [run_eq env false resp, headerLine_eq]
    rfl
  · simp only [List.length_cons, columns_length env resp]
  · intro hnames
    apply tabFields_joinTabs _ (by simp)
    intro f hf
    simp only [List.mem_cons] at hf
    rcases hf with rfl | rfl | rfl | hf
    · decide
    · decide
    · decide
    · exact hnames f ((mem_columns env resp f).mp hf)

/-- C10: the lines written with `--no-headers` are the lines written without
it less the first one, which is the header; the handler ends the same way in
both runs. -/
theorem no_headers_omits_first_line (env : Env) (resp : Response) :
    (runListMetricsCommand env true resp).lines
      = (runListMetricsCommand env false resp).lines.tail ∧
    (runListMetricsCommand env false resp).lines
      = headerLine (columns env resp) :: (runListMetricsCommand env true resp).lines ∧
    (runListMetricsCommand env true resp).failure
      = (runListMetricsCommand env false resp).failure := by
  rw [run_eq env false resp]
  exact ⟨rfl, rfl, rfl⟩

/-! ## How the handler ends -/

theorem renderRow_error_iff (env : Env) (types : List String) (k : String)
    (metrics : List (Nat × Cells)) (t : Nat) (f : Failure) :
    renderRow env types k metrics t = .error f ↔ keyFailure k = some f := by
  unfold renderRow keyFailure
  cases hk : keyIDs k with
  | none => simp
  | some ids =>
    obtain ⟨nodeID, cellID⟩ := ids
    cases ha : atoi cellID with
    | error e => simp [ha]
    | ok n => simp [ha]

theorem renderRow_isOk_iff (env : Env) (types : List String) (k : String)
    (metrics : List (Nat × Cells)) (t : Nat) :
    (∃ line, renderRow env types k metrics t = .ok line) ↔ keyFailure k = none := by
  unfold renderRow keyFailure
  cases hk : keyIDs k with
  | none => simp
  | some ids =>
    obtain ⟨nodeID, cellID⟩ := ids
    cases ha : atoi cellID with
    | error e => simp [ha]
    | ok n => simp [ha]

theorem renderTimes_failure (env : Env) (types : List String) (k : String)
    (metrics : List (Nat × Cells)) (ts : List Nat) (hts : ts ≠ []) :
    (renderTimes env types k metrics ts).failure = keyFailure k := by
  induction ts with
  | nil => exact absurd rfl hts
  | cons t ts ih =>
    cases hrow : renderRow env types k metrics t with
    | error f =>
      simp only [renderTimes, hrow]
      exact ((renderRow_error_iff env types k metrics t f).mp hrow).symm
    | ok line =>
      have hnone := (renderRow_isOk_iff env types k metrics t).mp ⟨line, hrow⟩
      simp only [renderTimes, hrow]
      cases ts with
      | nil => simp [renderTimes, hnone]
      | cons t2 ts => exact ih (by simp)

/-- The loop over the keys ends the way the first key that fails does. -/
theorem renderKeys_failure (env : Env) (types : List String) (results : Results)
    (keys : List String)
    (hne : ∀ k ∈ keys, sortedTimes ((mapGet k results).getD []) ≠ []) :
    (renderKeys env types results keys).failure = keys.findSome? keyFailure := by
  induction keys with
  | nil => rfl
  | cons k keys ih =>
    have h1 := renderTimes_failure env types k ((mapGet k results).getD [])
      (sortedTimes ((mapGet k results).getD [])) (hne k (List.mem_cons_self _ _))
    have ih2 := ih (fun k2 hk2 => hne k2 (List.mem_cons_of_mem _ hk2))
    simp only [renderKeys, List.findSome?_cons]
    cases hk : keyFailure k with
    | none =>
      rw [hk] at h1
      simp only [h1]
      exact ih2
    | some f =>
      rw [hk] at h1
      simp only [h1]

/-- The handler ends the way the smallest key with a failure does, and
returns `nil` when no key holding a record has one. -/
theorem run_failure (env : Env) (noHeaders : Bool) (resp : Response) :
    (runListMetricsCommand env noHeaders resp).failure
      = (sortedKeys (aggregate env resp).results).findSome? keyFailure := by
  rw [run_eq]
  show (renderKeys env _ _ _).failure = _
  apply renderKeys_failure
  intro k hk
  unfold sortedKeys at hk
  rw [mem_insertionSort_strLe, aggregate_eq_aggregateList, aggregateList_keys] at hk
  obtain ⟨p, hp, hpk⟩ := hk
  have hmem : p.2.timestamp ∈ sortedTimes ((mapGet k (aggregate env resp).results).getD []) := by
    rw [mem_sortedTimes, aggregate_eq_aggregateList, aggregateList_times]
    exact ⟨p, hp, hpk, rfl⟩
  exact List.ne_nil_of_mem hmem

theorem mem_sortedKeys (env : Env) (resp : Response) (k : String) :
    k ∈ sortedKeys (aggregate env resp).results ↔ ∃ p ∈ records resp, p.1 = k := by
  unfold sortedKeys
  rw [mem_insertionSort_strLe, aggregate_eq_aggregateList, aggregateList_keys]

theorem records_mapValues (f : MeasurementRecord → MeasValue) (resp : Response) :
    records (mapValues f resp)
      = (records resp).map (fun p => (p.1, ⟨p.2.timestamp, p.2.measurementName, f p.2⟩)) := by
  unfold records mapValues
  induction resp with
  | nil => rfl
  | cons entry resp ih =>
    simp only [List.map_cons, List.flatMap_cons, List.map_append, ih]
    congr 1
    generalize entry.2 = items
    induction items with
    | nil => rfl
    | cons it items ih2 =>
      simp only [List.map_cons, List.flatMap_cons, List.map_append, ih2, List.map_map]
      rfl

/-- The sorted keys do not depend on the values of the records. -/
theorem sortedKeys_mapValues (env : Env) (f : MeasurementRecord → MeasValue) (resp : Response) :
    sortedKeys (aggregate env (mapValues f resp)).results
      = sortedKeys (aggregate env resp).results := by
  apply List.eq_of_perm_of_sorted (r := (· < ·)) _ (sortedKeys_sorted env _)
    (sortedKeys_sorted env _)
  rw [List.perm_ext_iff_of_nodup (sortedKeys_sorted env _).nodup (sortedKeys_sorted env _).nodup]
  intro k
  rw [mem_sortedKeys, mem_sortedKeys, records_mapValues]
  simp only [List.mem_map]
  constructor
  · rintro ⟨p, ⟨q, hq, rfl⟩, h⟩
    exact ⟨q, hq, h⟩
  · rintro ⟨q, hq, h⟩
    exact ⟨_, ⟨q, hq, rfl⟩, h⟩

theorem keyFailure_of_colon (k : String) (h : ':' ∈ k.data) :
    keyFailure k = match atoi (keySecond k) with
      | .error e => some (.parseError e)
      | .ok _ => none := by
  unfold keyFailure
  rw [keyIDs_of_colon k h]

/-- C5, counterexample: in the sample response the record of key `node1:10`,
timestamp 1.5 s and metric `rsrq` has a value of unknown type and is the only
record at that cell, and the cell reads `<nil>`, not `N/A`. -/
theorem unknown_value_cell_is_not_marker :
    (∃ p ∈ records sampleResponse, atCell "node1:10" 1500000000 "rsrq" p ∧
      p.2.measurementValue = .unknown) ∧
    ((records sampleResponse).filter (atCell "node1:10" 1500000000 "rsrq")).length = 1 ∧
    runListMetricsCommand utcEnv true sampleResponse
      = ⟨["node0\t7\t00:00:00.0\t0\tN/A", "node1\ta\t00:00:00.5\t5\tN/A",
          "node1\ta\t00:00:01.500\tN/A\t<nil>"], none⟩ ∧
    cellText (aggregate utcEnv sampleResponse).results "node1:10" 1500000000 "rsrq" ≠ "N/A" := by
  decide

/-- C5, amended: a record whose value is of unknown type does not change the
way the handler ends (which does not depend on any value), and it stores the
text `<nil>`: when the records at its key, timestamp and metric name all have
a value of unknown type, the metric is a column and the row of that key and
timestamp, when written, shows `<nil>` in that column. -/
theorem unknown_value_prints_nil (env : Env) (noHeaders : Bool) (resp : Response)
    (k : String) (t : Nat) (m : String)
    (hex : ∃ p ∈ records resp, atCell k t m p)
    (hall : ∀ p ∈ records resp, atCell k t m p → p.2.measurementValue = .unknown) :
    (∀ f, (runListMetricsCommand env noHeaders (mapValues f resp)).failure
        = (runListMetricsCommand env noHeaders resp).failure) ∧
    m ∈ columns env resp ∧
    cellText (aggregate env resp).results k t m = "<nil>" ∧
    ∀ line, rowOf env resp k t = .ok line →
      ∃ fields i, line = joinTabs fields ∧
        fields.length = (columns env resp).length + 3 ∧
        (columns env resp)[i]? = some m ∧ fields[i + 3]? = some "<nil>" := by
  have hcell : cellText (aggregate env resp).results k t m = "<nil>" := by
    rw [cellText_eq, aggregate_eq_aggregateList, aggregateList_cell,
      lastValue_of_forall _ k t m .unknown hex hall]
    rfl
  have hcol : m ∈ columns env resp := by
    rw [mem_columns]
    obtain ⟨p, hp, hc⟩ := hex
    exact List.mem_map.mpr ⟨p, hp, hc.2.2⟩
  refine ⟨?_, hcol, hcell, ?_⟩
  · intro f
    rw [run_failure, run_failure, sortedKeys_mapValues]
  · intro line hline
    obtain ⟨_, n, _, hl⟩ := rowOf_ok env resp k t line hline
    obtain ⟨i, hi⟩ := List.mem_iff_getElem?.mp hcol
    refine ⟨_, i, hl, by simp, hi, ?_⟩
    simp only [List.getElem?_cons_succ, List.getElem?_map, hi, Option.map_some', hcell]

theorem unknown_value_prints_nil_witness :
    (∃ p ∈ records sampleResponse, atCell "node1:10" 1500000000 "rsrq" p) ∧
    (∀ p ∈ records sampleResponse, atCell "node1:10" 1500000000 "rsrq" p →
      p.2.measurementValue = .unknown) ∧
    ((∀ f, (runListMetricsCommand utcEnv false (mapValues f sampleResponse)).failure
        = (runListMetricsCommand utcEnv false sampleResponse).failure) ∧
    "rsrq" ∈ columns utcEnv sampleResponse ∧
    cellText (aggregate utcEnv sampleResponse).results "node1:10" 1500000000 "rsrq" = "<nil>" ∧
    ∀ line, rowOf utcEnv sampleResponse "node1:10" 1500000000 = .ok line →
      ∃ fields i, line = joinTabs fields ∧
        fields.length = (columns utcEnv sampleResponse).length + 3 ∧
        (columns utcEnv sampleResponse)[i]? = some "rsrq" ∧ fields[i + 3]? = some "<nil>") :=
  ⟨by decide, by decide,
    unknown_value_prints_nil utcEnv false sampleResponse "node1:10" 1500000000 "rsrq"
      (by decide) (by decide)⟩

/-- C6, counterexample: a response that holds a record under the key `b:x`,
whose cell `x` is not a number, and ends with the index failure of the key
`a`, not with a returned error; and a response whose only key `n:10:20` has
the text `10:20` after its first colon, which is not a number, and for which
the handler returns `nil` with the table complete. -/
theorem unparsable_cell_without_returned_error :
    ((∃ p ∈ records colonlessResponse, ':' ∈ p.1.data ∧ (atoi (keyCell p.1)).isOk = false) ∧
      runListMetricsCommand utcEnv true colonlessResponse = ⟨[], some .indexOutOfRange⟩) ∧
    ((∃ p ∈ records twoColonResponse, ':' ∈ p.1.data ∧ (atoi (keyCell p.1)).isOk = false) ∧
      runListMetricsCommand utcEnv true twoColonResponse = ⟨["n\ta\t00:00:00.0\t1"], none⟩) := by
  decide

/-- C6, amended: when every key that holds a record has a colon, the cell
part of a key being its text between the first colon and the next (or the end
of the key): if `Atoi` rejects the cell part of some such key, the handler
returns the parse error of one of these keys and writes fewer rows than there
are (key, timestamp) pairs; if it accepts them all, the handler returns
`nil`. -/
theorem parse_error_iff_cell_rejected (env : Env) (noHeaders : Bool) (resp : Response)
    (hcolon : ∀ p ∈ records resp, ':' ∈ p.1.data) :
    ((∃ p ∈ records resp, (atoi (keySecond p.1)).isOk = false) →
      ∃ k e, (∃ p ∈ records resp, p.1 = k) ∧ atoi (keySecond k) = .error e ∧
        (runListMetricsCommand env noHeaders resp).failure = some (.parseError e) ∧
        ∃ idx : List (String × Nat), idx.Nodup ∧
          (∀ k t, (k, t) ∈ idx ↔ ∃ p ∈ records resp, atRow k t p) ∧
          (runListMetricsCommand env true resp).lines.length < idx.length) ∧
    ((∀ p ∈ records resp, (atoi (keySecond p.1)).isOk = true) →
      (runListMetricsCommand env noHeaders resp).failure = none) := by
  constructor
  · rintro ⟨p, hp, hbad⟩
    cases hf : (runListMetricsCommand env noHeaders resp).failure with
    | none =>
      rw [run_failure, List.findSome?_eq_none_iff] at hf
      have hk := hf p.1 ((mem_sortedKeys env resp p.1).mpr ⟨p, hp, rfl⟩)
      rw [keyFailure_of_colon _ (hcolon p hp)] at hk
      cases ha : atoi (keySecond p.1) with
      | error e => simp [ha] at hk
      | ok n => simp [ha, Except.isOk, Except.toBool] at hbad
    | some f =>
      have hf2 := hf
      rw [run_failure] at hf2
      obtain ⟨k, hk, hkf⟩ := List.exists_of_findSome?_eq_some hf2
      obtain ⟨q, hq, hqk⟩ := (mem_sortedKeys env resp k).mp hk
      have hc : ':' ∈ k.data := hqk ▸ hcolon q hq
      rw [keyFailure_of_colon k hc] at hkf
      cases ha : atoi (keySecond k) with
      | ok n => simp [ha] at hkf
      | error e =>
        simp only [ha, Option.some.injEq] at hkf
        refine ⟨k, e, ⟨q, hq, hqk⟩, ha, by rw [hkf], _, rows_nodup env resp,
          mem_rows env resp, ?_⟩
        obtain ⟨done, h1, h2⟩ := run_rows env resp
        rcases h2 with ⟨hnone, _⟩ | ⟨_, _, _, _, hrows, _⟩
        · rw [run_eq env noHeaders resp] at hf
          simp only at hf
          rw [hnone] at hf
          cases hf
        · rw [hrows, ← h1.length_eq]
          simp
  · intro hall
    rw [run_failure, List.findSome?_eq_none_iff]
    intro k hk
    obtain ⟨q, hq, hqk⟩ := (mem_sortedKeys env resp k).mp hk
    have hc : ':' ∈ k.data := hqk ▸ hcolon q hq
    have hok := hall q hq
    rw [hqk] at hok
    rw [keyFailure_of_colon k hc]
    cases ha : atoi (keySecond k) with
    | error e => simp [ha, Except.isOk, Except.toBool] at hok
    | ok n => rfl

theorem parse_error_iff_cell_rejected_witness :
    (∀ p ∈ records badCellResponse, ':' ∈ p.1.data) ∧
    (((∃ p ∈ records badCellResponse, (atoi (keySecond p.1)).isOk = false) →
      ∃ k e, (∃ p ∈ records badCellResponse, p.1 = k) ∧ atoi (keySecond k) = .error e ∧
        (runListMetricsCommand utcEnv false badCellResponse).failure = some (.parseError e) ∧
        ∃ idx : List (String × Nat), idx.Nodup ∧
          (∀ k t, (k, t) ∈ idx ↔ ∃ p ∈ records badCellResponse, atRow k t p) ∧
          (runListMetricsCommand utcEnv true badCellResponse).lines.length < idx.length) ∧
    ((∀ p ∈ records badCellResponse, (atoi (keySecond p.1)).isOk = true) →
      (runListMetricsCommand utcEnv false badCellResponse).failure = none)) :=
  ⟨by decide, parse_error_iff_cell_rejected utcEnv false badCellResponse (by decide)⟩

/-! ## Keys of the form node:cell -/

theorem takeWhile_append_colon (node rest : List Char) (h : ':' ∉ node) :
    (node ++ ':' :: rest).takeWhile (fun c => c != ':') = node := by
  induction node with
  | nil => simp
  | cons a node ih =>
    have ha : a ≠ ':' := fun e => h (e ▸ List.mem_cons_self _ _)
    have ha2 : (a != ':') = true := by simpa using ha
    simp only [List.cons_append, List.takeWhile_cons, ha2, if_true]
    rw [ih (fun hm => h (List.mem_cons_of_mem _ hm))]

theorem dropWhile_append_colon (node rest : List Char) (h : ':' ∉ node) :
    (node ++ ':' :: rest).dropWhile (fun c => c != ':') = ':' :: rest := by
  induction node with
  | nil => simp
  | cons a node ih =>
    have ha : a ≠ ':' := fun e => h (e ▸ List.mem_cons_self _ _)
    have ha2 : (a != ':') = true := by simpa using ha
    simp only [List.cons_append, List.dropWhile_cons, ha2, if_true]
    exact ih (fun hm => h (List.mem_cons_of_mem _ hm))

theorem keyNode_append (node cell : String) (h : ':' ∉ node.data) :
    keyNode (node ++ ":" ++ cell) = node := by
  unfold keyNode
  have : (node ++ ":" ++ cell).data = node.data ++ ':' :: cell.data := by
    simp [String.data_append]
  rw [this, takeWhile_append_colon _ _ h]

theorem keyCell_append (node cell : String) (h : ':' ∉ node.data) :
    keyCell (node ++ ":" ++ cell) = cell := by
  unfold keyCell
  have : (node ++ ":" ++ cell).data = node.data ++ ':' :: cell.data := by
    simp [String.data_append]
  rw [this, dropWhile_append_colon _ _ h]
  rfl

theorem mem_data_append_colon (node cell : String) : ':' ∈ (node ++ ":" ++ cell).data := by
  simp [String.data_append]

/-! ## Decimal and hexadecimal numerals -/

theorem parseUintLoop_append (l : List Char) (c : Char) (n : Nat) :
    parseUintLoop (l ++ [c]) n
      = match parseUintLoop l n with
        | .ok m => parseUintLoop [c] m
        | .error e => .error e := by
  induction l generalizing n with
  | nil => rfl
  | cons a l ih =>
    simp only [List.cons_append, parseUintLoop]
    split
    · split
      · rfl
      · split
        · rfl
        · exact ih _
    · rfl

theorem digitChar_decimal : ∀ d < 10,
    (Nat.digitChar d).isDigit = true ∧ (Nat.digitChar d).toNat - 48 = d ∧
      Nat.digitChar d ≠ '+' ∧ Nat.digitChar d ≠ '-' := by
  decide

/-- The digit loop reads the decimal numeral of a `uint64` back. -/
theorem parseUintLoop_toDigits (v : Nat) (hv : v < 2 ^ 64) :
    parseUintLoop (Nat.toDigits 10 v) 0 = .ok v := by
  induction v using Nat.strong_induction_on with
  | _ v ih =>
    rw [toDigits_eq 10 (by decide) v]
    by_cases h : v < 10
    · obtain ⟨h1, h2, _⟩ := digitChar_decimal v h
      simp only [h, if_true, parseUintLoop, h1, h2]
      have h3 : ¬ (0 ≥ (2 ^ 64 - 1) / 10 + 1) := by decide
      have h4 : ¬ (0 * 10 + v > 2 ^ 64 - 1) := by omega
      simp only [h3, h4, if_false]
      congr 1
      omega
    · obtain ⟨h1, h2, _⟩ := digitChar_decimal (v % 10) (Nat.mod_lt _ (by decide))
      simp only [h, if_false]
      rw [parseUintLoop_append, ih (v / 10) (by omega) (by omega)]
      simp only [parseUintLoop, h1, h2, if_true]
      have h3 : ¬ (v / 10 ≥ (2 ^ 64 - 1) / 10 + 1) := by omega
      have h4 : ¬ (v / 10 * 10 + v % 10 > 2 ^ 64 - 1) := by omega
      simp only [h3, h4, if_false]
      congr 1
      omega

theorem toDigits_ne_nil (b : Nat) (hb : 2 ≤ b) (n : Nat) : Nat.toDigits b n ≠ [] := by
  rw [toDigits_eq b hb n]
  split <;> simp

theorem toDigits_head (b : Nat) (hb : 2 ≤ b) (n : Nat) :
    ∃ d, d < b ∧ (n ≠ 0 → d ≠ 0) ∧ ∃ rest, Nat.toDigits b n = Nat.digitChar d :: rest := by
  induction n using Nat.strong_induction_on with
  | _ n ih =>
    rw [toDigits_eq b hb n]
    by_cases h : n < b
    · exact ⟨n, h, fun h0 => h0, [], by simp [h]⟩
    · obtain ⟨d, hd, hd0, rest, hrest⟩ := ih (n / b) (Nat.div_lt_self (by omega) (by omega))
      refine ⟨d, hd, fun _ => hd0 ?_, rest ++ [Nat.digitChar (n % b)], ?_⟩
      · intro h0
        exact h ((Nat.div_eq_zero_iff (by omega)).mp h0)
      · simp [h, hrest]

/-- The function `Atoi` reads the decimal numeral of a natural number in the
`int` range back. -/
theorem atoi_repr (v : Nat) (hv : v < 2 ^ 63) : atoi (Nat.repr v) = .ok (v : Int) := by
  obtain ⟨d, hd, _, rest, hrest⟩ := toDigits_head 10 (by decide) v
  obtain ⟨_, _, hplus, hminus⟩ := digitChar_decimal d hd
  have hdata : (Nat.repr v).data = Nat.digitChar d :: rest := hrest
  rw [atoi_cons _ _ _ hdata]
  have hsign : ¬ (Nat.digitChar d = '+' ∨ Nat.digitChar d = '-') := by
    rintro (h | h)
    · exact hplus h
    · exact hminus h
  have hbody : (if Nat.digitChar d = '+' ∨ Nat.digitChar d = '-' then rest
      else Nat.digitChar d :: rest) = Nat.toDigits 10 v := by
    rw [if_neg hsign, hrest]
  rw [hbody, if_neg (toDigits_ne_nil 10 (by decide) v), parseUintLoop_toDigits v (by omega)]
  simp only [hminus, false_and, not_false_eq_true, true_and, if_false, ge_iff_le]
  rw [if_neg (by omega)]

theorem hexDigitValue_digitChar : ∀ d < 16,
    hexDigitValue (Nat.digitChar d) = some d ∧ Nat.digitChar d ∈ "0123456789abcdef".data ∧
      (d ≠ 0 → Nat.digitChar d ≠ '0') := by
  decide

/-- Reading the hexadecimal digits of a number gives the number back. -/
theorem hexValue_toDigits (v : Nat) : hexValue (String.mk (Nat.toDigits 16 v)) = some v := by
  unfold hexValue
  simp only
  induction v using Nat.strong_induction_on with
  | _ v ih =>
    rw [toDigits_eq 16 (by decide) v]
    by_cases h : v < 16
    · simp [h, (hexDigitValue_digitChar v h).1]
    · simp only [h, if_false, List.foldl_append, List.foldl_cons, List.foldl_nil]
      rw [ih (v / 16) (by omega),
        (hexDigitValue_digitChar (v % 16) (Nat.mod_lt _ (by decide))).1]
      simp only [Option.some_bind, Option.map_some', Option.some.injEq]
      omega

/-- C7, counterexample: the key `n:10:20` has a colon, its text after the
first colon is `10:20`, and the handler takes `10` as its cell identifier: the
row of the key shows the cell `a` and the handler returns `nil`. -/
theorem cell_id_is_not_rest_of_key :
    ':' ∈ "n:10:20".data ∧ keyCell "n:10:20" = "10:20" ∧
    keyIDs "n:10:20" = some ("n", "10") ∧
    keyIDs "n:10:20" ≠ some (keyNode "n:10:20", keyCell "n:10:20") ∧
    runListMetricsCommand utcEnv true twoColonResponse = ⟨["n\ta\t00:00:00.0\t1"], none⟩ := by
  decide

/-- C7, amended: for every key with a colon the node identifier is the text
before the first colon and the cell identifier is the text between the first
colon and the next one, or the end of the key when there is no other colon (in
which case it is all of the text after the first colon); a row written for
the key starts with that node identifier and the hexadecimal of that cell
identifier. -/
theorem key_split_at_every_colon (k : String) (h : ':' ∈ k.data) :
    keyIDs k = some (keyNode k, keySecond k) ∧
    (':' ∉ (keyCell k).data → keySecond k = keyCell k) ∧
    ∀ (env : Env) (resp : Response) (t : Nat) (line : String),
      rowOf env resp k t = .ok line →
        ∃ n, atoi (keySecond k) = .ok n ∧
          line = joinTabs (keyNode k :: fmtInt 16 n :: tsFormat env t
            :: (columns env resp).map (cellText (aggregate env resp).results k t)) :=
  ⟨keyIDs_of_colon k h, keySecond_of_no_colon k,
    fun env resp t line hl => (rowOf_ok env resp k t line hl).2⟩

theorem key_split_at_every_colon_witness :
    ':' ∈ "n:10:20".data ∧
    (keyIDs "n:10:20" = some (keyNode "n:10:20", keySecond "n:10:20") ∧
    (':' ∉ (keyCell "n:10:20").data → keySecond "n:10:20" = keyCell "n:10:20") ∧
    ∀ (env : Env) (resp : Response) (t : Nat) (line : String),
      rowOf env resp "n:10:20" t = .ok line →
        ∃ n, atoi (keySecond "n:10:20") = .ok n ∧
          line = joinTabs (keyNode "n:10:20" :: fmtInt 16 n :: tsFormat env t
            :: (columns env resp).map (cellText (aggregate env resp).results "n:10:20" t))) ∧
    keySecond "n:10:20" = "10" :=
  ⟨by decide, key_split_at_every_colon "n:10:20" (by decide), by decide⟩

/-- C8: for a key node:cell whose node has no colon and whose cell is the
decimal numeral of a natural number `v` below `2^63`, every row of the key is
written, its first field is the node unchanged, and its second field is the
hexadecimal numeral of `v`: lowercase digits only, no leading zero unless `v`
is zero, and read back as hexadecimal it gives `v`. -/
theorem cell_id_shown_in_hexadecimal (env : Env) (resp : Response) (node : String) (v : Nat)
    (t : Nat) (hnode : ':' ∉ node.data) (hv : v < 2 ^ 63) :
    rowOf env resp (node ++ ":" ++ Nat.repr v) t
      = .ok (joinTabs (node :: String.mk (Nat.toDigits 16 v) :: tsFormat env t
          :: (columns env resp).map
              (cellText (aggregate env resp).results (node ++ ":" ++ Nat.repr v) t))) ∧
    hexValue (String.mk (Nat.toDigits 16 v)) = some v ∧
    (∀ c ∈ Nat.toDigits 16 v, c ∈ "0123456789abcdef".data) ∧
    (v ≠ 0 → (Nat.toDigits 16 v).head? ≠ some '0') := by
  have hcell : keyCell (node ++ ":" ++ Nat.repr v) = Nat.repr v := keyCell_append _ _ hnode
  have hwf : wellFormedKey (node ++ ":" ++ Nat.repr v) := by
    refine ⟨mem_data_append_colon _ _, ?_⟩
    rw [hcell, atoi_repr v hv]
    rfl
  refine ⟨?_, hexValue_toDigits v, ?_, ?_⟩
  · rw [rowOf_wellFormed env resp _ t hwf, keyNode_append _ _ hnode, hcell,
      hexOfCell_ok _ _ (atoi_repr v hv)]
    have hfmt : fmtInt 16 (v : Int) = String.mk (Nat.toDigits 16 v) := by
      unfold fmtInt
      rw [if_neg (by omega)]
      rfl
    rw [hfmt]
  · intro c hc
    obtain ⟨d, hd, rfl⟩ := toDigits_chars 16 (by decide) v c hc
    exact (hexDigitValue_digitChar d hd).2.1
  · intro hv0 hhead
    obtain ⟨d, hd, hd0, rest, hrest⟩ := toDigits_head 16 (by decide) v
    rw [hrest] at hhead
    simp only [List.head?_cons, Option.some.injEq] at hhead
    exact (hexDigitValue_digitChar d hd).2.2 (hd0 hv0) hhead

theorem cell_id_shown_in_hexadecimal_witness :
    ':' ∉ "node1".data ∧ 10 < 2 ^ 63 ∧
    (rowOf utcEnv sampleResponse ("node1" ++ ":" ++ Nat.repr 10) 5000000
      = .ok (joinTabs ("node1" :: String.mk (Nat.toDigits 16 10) :: tsFormat utcEnv 5000000
          :: (columns utcEnv sampleResponse).map
              (cellText (aggregate utcEnv sampleResponse).results
                ("node1" ++ ":" ++ Nat.repr 10) 5000000))) ∧
    hexValue (String.mk (Nat.toDigits 16 10)) = some 10 ∧
    (∀ c ∈ Nat.toDigits 16 10, c ∈ "0123456789abcdef".data) ∧
    (10 ≠ 0 → (Nat.toDigits 16 10).head? ≠ some '0')) :=
  ⟨by decide, by decide,
    cell_id_shown_in_hexadecimal utcEnv sampleResponse "node1" 10 5000000 (by decide)
      (by decide)⟩

/-- C9, the code at the failing input: 5 ms after the epoch, in UTC, is
printed with the fraction `.5`, not the three digits `.005`; 50 ms gives
`.50`, and only from 100 ms on are there three digits. -/
theorem time_fraction_not_padded :
    tsFormat utcEnv 5000000 = "00:00:00.5" ∧
    tsFormat utcEnv 5000000 ≠ "00:00:00.005" ∧
    tsFormat utcEnv 50000000 = "00:00:00.50" ∧
    tsFormat utcEnv 500000000 = "00:00:00.500" := by
  decide

/-! ## What a cell depends on -/

theorem lastValue_foldl_filter (q : String × MeasurementRecord → Bool) (k : String) (t : Nat)
    (m : String) (hq : ∀ p, atCell k t m p → q p = true)
    (l : List (String × MeasurementRecord)) (acc : Option MeasValue) :
    (l.filter q).foldl
        (fun acc p => if atCell k t m p then some p.2.measurementValue else acc) acc
      = l.foldl (fun acc p => if atCell k t m p then some p.2.measurementValue else acc) acc := by
  induction l generalizing acc with
  | nil => rfl
  | cons p l ih =>
    by_cases hp : q p = true
    · rw [List.filter_cons_of_pos hp, List.foldl_cons, List.foldl_cons, ih]
    · have hc : ¬ atCell k t m p := fun h => hp (hq p h)
      rw [List.filter_cons_of_neg hp, List.foldl_cons, if_neg hc, ih]

/-- The value at a cell is that of the records kept by any filter that keeps
the records at the cell. -/
theorem lastValue_filter (q : String × MeasurementRecord → Bool) (k : String) (t : Nat)
    (m : String) (hq : ∀ p, atCell k t m p → q p = true)
    (l : List (String × MeasurementRecord)) :
    lastValue (l.filter q) k t m = lastValue l k t m :=
  lastValue_foldl_filter q k t m hq l none

/-- The value at a cell is the value of the last record at the cell. -/
theorem lastValue_eq_getLast (l : List (String × MeasurementRecord)) (k : String) (t : Nat)
    (m : String) :
    lastValue l k t m
      = ((l.filter (fun p => decide (atCell k t m p))).getLast?).map
          (fun p => p.2.measurementValue) := by
  induction l using List.reverseRecOn with
  | nil => rfl
  | append_singleton l p ih =>
    rw [lastValue_snoc, List.filter_append]
    by_cases h : atCell k t m p
    · have hf : [p].filter (fun p => decide (atCell k t m p)) = [p] := by simp [h]
      rw [if_pos h, hf, List.getLast?_concat]
      rfl
    · have hf : [p].filter (fun p => decide (atCell k t m p)) = [] := by simp [h]
      rw [if_neg h, hf, List.append_nil, ih]

/-- The cells of a row depend on the records stored at the row only. -/
theorem cell_congr (env : Env) (resp1 resp2 : Response) (k : String) (t : Nat)
    (hrow : (records resp1).filter (fun p => decide (atRow k t p))
      = (records resp2).filter (fun p => decide (atRow k t p))) (m : String) :
    mapGet m ((mapGet t ((mapGet k (aggregate env resp1).results).getD [])).getD [])
      = mapGet m ((mapGet t ((mapGet k (aggregate env resp2).results).getD [])).getD []) := by
  have hq : ∀ p, atCell k t m p → decide (atRow k t p) = true := by
    intro p hp
    exact decide_eq_true ⟨hp.1, hp.2.1⟩
  rw [aggregate_eq_aggregateList, aggregate_eq_aggregateList, aggregateList_cell,
    aggregateList_cell, ← lastValue_filter _ k t m hq (records resp1),
    ← lastValue_filter _ k t m hq (records resp2), hrow]

theorem cellText_congr (env : Env) (resp1 resp2 : Response) (k : String) (t : Nat)
    (hrow : (records resp1).filter (fun p => decide (atRow k t p))
      = (records resp2).filter (fun p => decide (atRow k t p))) (m : String) :
    cellText (aggregate env resp1).results k t m
      = cellText (aggregate env resp2).results k t m := by
  rw [cellText_eq, cellText_eq, cell_congr env resp1 resp2 k t hrow m]

/-- The columns depend on the set of metric names only. -/
theorem columns_congr (env : Env) (resp1 resp2 : Response)
    (hnames : ∀ m, m ∈ metricNames resp1 ↔ m ∈ metricNames resp2) :
    columns env resp1 = columns env resp2 := by
  apply List.eq_of_perm_of_sorted (r := (· < ·)) _ (columns_sorted env _) (columns_sorted env _)
  rw [List.perm_ext_iff_of_nodup (columns_sorted env _).nodup (columns_sorted env _).nodup]
  intro m
  rw [mem_columns, mem_columns, hnames]

theorem appendCells_congr (types : List String) (c1 c2 : Cells) (start : String)
    (h : ∀ m, mapGet m c1 = mapGet m c2) :
    appendCells types c1 start = appendCells types c2 start := by
  induction types generalizing start with
  | nil => rfl
  | cons m types ih => rw [appendCells_cons, appendCells_cons, h m, ih]

/-- A row depends on the time map of its key through the cells of its
timestamp only. -/
theorem renderRow_congr (env : Env) (types : List String) (k : String)
    (m1 m2 : List (Nat × Cells)) (t : Nat)
    (h : ∀ m, mapGet m ((mapGet t m1).getD []) = mapGet m ((mapGet t m2).getD [])) :
    renderRow env types k m1 t = renderRow env types k m2 t := by
  unfold renderRow
  simp only [appendCells_congr types _ _ _ h]

theorem renderTimes_congr (env : Env) (types : List String) (k : String)
    (m1 m2 : List (Nat × Cells)) (ts : List Nat)
    (h : ∀ t m, mapGet m ((mapGet t m1).getD []) = mapGet m ((mapGet t m2).getD [])) :
    renderTimes env types k m1 ts = renderTimes env types k m2 ts := by
  induction ts with
  | nil => rfl
  | cons t ts ih =>
    simp only [renderTimes, renderRow_congr env types k m1 m2 t (h t), ih]

theorem renderKeys_congr (env : Env) (types : List String) (r1 r2 : Results)
    (keys : List String)
    (htimes : ∀ k ∈ keys, sortedTimes ((mapGet k r1).getD []) = sortedTimes ((mapGet k r2).getD []))
    (hcells : ∀ k ∈ keys, ∀ t m, mapGet m ((mapGet t ((mapGet k r1).getD [])).getD [])
      = mapGet m ((mapGet t ((mapGet k r2).getD [])).getD [])) :
    renderKeys env types r1 keys = renderKeys env types r2 keys := by
  induction keys with
  | nil => rfl
  | cons k keys ih =>
    have ih2 := ih (fun k2 hk2 => htimes k2 (List.mem_cons_of_mem _ hk2))
      (fun k2 hk2 => hcells k2 (List.mem_cons_of_mem _ hk2))
    simp only [renderKeys, htimes k (List.mem_cons_self _ _),
      renderTimes_congr env types k _ _ _ (hcells k (List.mem_cons_self _ _)), ih2]

/-! ## The output as a function of the records of each key -/

theorem mem_records_of_filter (resp1 resp2 : Response)
    (hrec : ∀ k, (records resp1).filter (fun p => decide (p.1 = k))
      = (records resp2).filter (fun p => decide (p.1 = k)))
    (p : String × MeasurementRecord) (hp : p ∈ records resp1) : p ∈ records resp2 := by
  have h1 : p ∈ (records resp1).filter (fun q => decide (q.1 = p.1)) :=
    List.mem_filter.mpr ⟨hp, by simp⟩
  rw [hrec p.1] at h1
  exact (List.mem_filter.mp h1).1

theorem filter_atRow (l : List (String × MeasurementRecord)) (k : String) (t : Nat) :
    l.filter (fun p => decide (atRow k t p))
      = (l.filter (fun p => decide (p.1 = k))).filter (fun p => decide (p.2.timestamp = t)) := by
  rw [List.filter_filter]
  congr 1
  funext p
  simp [atRow, and_comm]

theorem sortedKeys_congr (env : Env) (resp1 resp2 : Response)
    (h : ∀ p, p ∈ records resp1 ↔ p ∈ records resp2) :
    sortedKeys (aggregate env resp1).results = sortedKeys (aggregate env resp2).results := by
  apply List.eq_of_perm_of_sorted (r := (· < ·)) _ (sortedKeys_sorted env _)
    (sortedKeys_sorted env _)
  rw [List.perm_ext_iff_of_nodup (sortedKeys_sorted env _).nodup (sortedKeys_sorted env _).nodup]
  intro k
  rw [mem_sortedKeys, mem_sortedKeys]
  constructor
  · rintro ⟨p, hp, hk⟩
    exact ⟨p, (h p).mp hp, hk⟩
  · rintro ⟨p, hp, hk⟩
    exact ⟨p, (h p).mpr hp, hk⟩

theorem sortedTimes_congr (env : Env) (resp1 resp2 : Response)
    (h : ∀ p, p ∈ records resp1 ↔ p ∈ records resp2) (k : String) :
    sortedTimes ((mapGet k (aggregate env resp1).results).getD [])
      = sortedTimes ((mapGet k (aggregate env resp2).results).getD []) := by
  have hn1 := sorted_sortedTimes _ (aggregateList_times_nodup env (records resp1) k)
  have hn2 := sorted_sortedTimes _ (aggregateList_times_nodup env (records resp2) k)
  rw [aggregate_eq_aggregateList, aggregate_eq_aggregateList]
  apply List.eq_of_perm_of_sorted (r := (· < ·)) _ hn1 hn2
  rw [List.perm_ext_iff_of_nodup hn1.nodup hn2.nodup]
  intro t
  rw [mem_sortedTimes, mem_sortedTimes, aggregateList_times, aggregateList_times]
  constructor
  · rintro ⟨p, hp, hk⟩
    exact ⟨p, (h p).mp hp, hk⟩
  · rintro ⟨p, hp, hk⟩
    exact ⟨p, (h p).mpr hp, hk⟩

/-- Two responses whose keys hold the same records in the same order give the
same output. -/
theorem run_congr (env : Env) (noHeaders : Bool) (resp1 resp2 : Response)
    (hrec : ∀ k, (records resp1).filter (fun p => decide (p.1 = k))
      = (records resp2).filter (fun p => decide (p.1 = k))) :
    runListMetricsCommand env noHeaders resp1 = runListMetricsCommand env noHeaders resp2 := by
  have hmem : ∀ p, p ∈ records resp1 ↔ p ∈ records resp2 := fun p =>
    ⟨mem_records_of_filter resp1 resp2 hrec p,
      mem_records_of_filter resp2 resp1 (fun k => (hrec k).symm) p⟩
  have hnames : ∀ m, m ∈ metricNames resp1 ↔ m ∈ metricNames resp2 := by
    intro m
    simp only [metricNames, List.mem_map]
    constructor
    · rintro ⟨p, hp, h⟩
      exact ⟨p, (hmem p).mp hp, h⟩
    · rintro ⟨p, hp, h⟩
      exact ⟨p, (hmem p).mpr hp, h⟩
  have hcols := columns_congr env resp1 resp2 hnames
  have hkeys := sortedKeys_congr env resp1 resp2 hmem
  have hloop : renderKeys env (columns env resp1) (aggregate env resp1).results
        (sortedKeys (aggregate env resp1).results)
      = renderKeys env (columns env resp2) (aggregate env resp2).results
        (sortedKeys (aggregate env resp2).results) := by
    rw [hcols, hkeys]
    apply renderKeys_congr
    · intro k _
      exact sortedTimes_congr env resp1 resp2 hmem k
    · intro k _ t m
      apply cell_congr
      rw [filter_atRow, filter_atRow, hrec k]
  have e1 : runListMetricsCommand env noHeaders resp1
      = ⟨(if noHeaders then [] else [headerLine (columns env resp1)])
          ++ (renderKeys env (columns env resp1) (aggregate env resp1).results
            (sortedKeys (aggregate env resp1).results)).lines,
        (renderKeys env (columns env resp1) (aggregate env resp1).results
            (sortedKeys (aggregate env resp1).results)).failure⟩ := rfl
  have e2 : runListMetricsCommand env noHeaders resp2
      = ⟨(if noHeaders then [] else [headerLine (columns env resp2)])
          ++ (renderKeys env (columns env resp2) (aggregate env resp2).results
            (sortedKeys (aggregate env resp2).results)).lines,
        (renderKeys env (columns env resp2) (aggregate env resp2).results
            (sortedKeys (aggregate env resp2).results)).failure⟩ := rfl
  rw [e1, e2, hloop, hcols]

/-! ## The order of the entries of the response -/

theorem records_cons (entry : String × List MeasurementItem) (resp : Response) :
    records (entry :: resp) = records [entry] ++ records resp := by
  simp [records]

theorem records_single_key (entry : String × List MeasurementItem)
    (p : String × MeasurementRecord) (hp : p ∈ records [entry]) : p.1 = entry.1 := by
  simp only [records, List.flatMap_cons, List.flatMap_nil, List.append_nil, List.mem_flatMap,
    List.mem_map] at hp
  obtain ⟨_, _, r, _, rfl⟩ := hp
  rfl

/-- The records of a key are the records of the entries with that key. -/
theorem filter_records (resp : Response) (k : String) :
    (records resp).filter (fun p => decide (p.1 = k))
      = records (resp.filter (fun e => decide (e.1 = k))) := by
  induction resp with
  | nil => rfl
  | cons entry resp ih =>
    rw [records_cons, List.filter_append, ih]
    by_cases h : entry.1 = k
    · rw [List.filter_cons_of_pos (by simpa using h),
        records_cons entry (List.filter _ resp)]
      congr 1
      rw [List.filter_eq_self]
      intro p hp
      simp [records_single_key entry p hp, h]
    · rw [List.filter_cons_of_neg (by simpa using h)]
      have : (records [entry]).filter (fun p => decide (p.1 = k)) = [] := by
        rw [List.filter_eq_nil_iff]
        intro p hp
        simp [records_single_key entry p hp, h]
      rw [this, List.nil_append]

theorem filter_key_length (resp : Response) (k : String) (h : (resp.map Prod.fst).Nodup) :
    (resp.filter (fun e => decide (e.1 = k))).length ≤ 1 := by
  induction resp with
  | nil => simp
  | cons entry resp ih =>
    rw [List.map_cons, List.nodup_cons] at h
    by_cases hk : entry.1 = k
    · have hnil : resp.filter (fun e => decide (e.1 = k)) = [] := by
        rw [List.filter_eq_nil_iff]
        intro e he hek
        apply h.1
        rw [hk, ← of_decide_eq_true hek]
        exact List.mem_map_of_mem _ he
      rw [List.filter_cons_of_pos (by simpa using hk), hnil]
      simp
    · rw [List.filter_cons_of_neg (by simpa using hk)]
      exact ih h.2

theorem perm_eq_of_length_le_one {α : Type} (l1 l2 : List α) (h : List.Perm l1 l2)
    (hlen : l1.length ≤ 1) : l1 = l2 := by
  match l1, hlen with
  | [], _ => exact (List.Perm.nil_eq h)
  | [a], _ => exact List.singleton_perm.mp h

/-- A permutation of the entries of a response with distinct keys leaves the
records of each key, in their order, the same. -/
theorem filter_records_perm (resp1 resp2 : Response) (hperm : List.Perm resp1 resp2)
    (hkeys : (resp1.map Prod.fst).Nodup) (k : String) :
    (records resp1).filter (fun p => decide (p.1 = k))
      = (records resp2).filter (fun p => decide (p.1 = k)) := by
  rw [filter_records, filter_records,
    perm_eq_of_length_le_one _ _ (hperm.filter (fun e => decide (e.1 = k)))
      (filter_key_length resp1 k hkeys)]

theorem insertionSort_strLe_perm (l1 l2 : List String) (h : List.Perm l1 l2) :
    l1.insertionSort strLe = l2.insertionSort strLe := by
  rw [insertionSort_strLe, insertionSort_strLe]
  apply List.eq_of_perm_of_sorted (r := (· ≤ ·)) _ (List.sorted_insertionSort _ _)
    (List.sorted_insertionSort _ _)
  exact ((List.perm_insertionSort _ l1).trans h).trans (List.perm_insertionSort _ l2).symm

theorem forall₂_left_mem {α β : Type} (r : α → β → Prop) (l : List α) (l2 : List β)
    (h : List.Forall₂ r l l2) : ∀ a ∈ l, ∃ b ∈ l2, r a b := by
  induction h with
  | nil => simp
  | cons hab _ ih =>
    intro a ha
    rcases List.mem_cons.mp ha with rfl | ha
    · exact ⟨_, List.mem_cons_self _ _, hab⟩
    · obtain ⟨b, hb, hr⟩ := ih a ha
      exact ⟨b, List.mem_cons_of_mem _ hb, hr⟩

/-- When the handler returns `nil`, the row of every (key, timestamp) pair
that holds a record is among the lines written. -/
theorem run_row_written (env : Env) (resp : Response) (k : String) (t : Nat)
    (hrec : ∃ p ∈ records resp, atRow k t p)
    (hok : (runListMetricsCommand env true resp).failure = none) :
    ∃ line, rowOf env resp k t = .ok line ∧ line ∈ (runListMetricsCommand env true resp).lines := by
  obtain ⟨done, h1, h2⟩ := run_rows env resp
  rcases h2 with ⟨_, hall⟩ | ⟨f, _, _, hf, _, _⟩
  · have hmem : (k, t) ∈ done := by
      rw [hall]
      exact (mem_rows env resp k t).mpr hrec
    obtain ⟨line, hline, hrow⟩ := forall₂_left_mem _ _ _ h1 (k, t) hmem
    exact ⟨line, hrow, hline⟩
  · rw [hf] at hok
    cases hok

/-- C11: the row of a key and timestamp depends on the records stored under
that key with that timestamp and on the set of metric names only: two
responses that agree on both (whatever their records under other keys or
other timestamps) have the same columns and the same row for that key and
timestamp, cell by cell; a metric with no record under the key reads N/A in
the key's row; and when both runs return `nil` the row is written in both. -/
theorem rows_do_not_cross_contaminate (env : Env) (resp1 resp2 : Response) (k : String)
    (t : Nat)
    (hrow : (records resp1).filter (fun p => decide (atRow k t p))
      = (records resp2).filter (fun p => decide (atRow k t p)))
    (h12 : ∀ m ∈ metricNames resp1, m ∈ metricNames resp2)
    (h21 : ∀ m ∈ metricNames resp2, m ∈ metricNames resp1) :
    rowOf env resp1 k t = rowOf env resp2 k t ∧
    columns env resp1 = columns env resp2 ∧
    (∀ m, cellText (aggregate env resp1).results k t m
      = cellText (aggregate env resp2).results k t m) ∧
    (∀ m, (∀ p ∈ records resp1, p.1 = k → p.2.measurementName ≠ m) →
      cellText (aggregate env resp1).results k t m = "N/A") ∧
    ((∃ p ∈ records resp1, atRow k t p) →
      (runListMetricsCommand env true resp1).failure = none →
      (runListMetricsCommand env true resp2).failure = none →
      ∃ line, rowOf env resp1 k t = .ok line ∧
        line ∈ (runListMetricsCommand env true resp1).lines ∧
        line ∈ (runListMetricsCommand env true resp2).lines) := by
  have hcols : columns env resp1 = columns env resp2 :=
    columns_congr env resp1 resp2 (fun m => ⟨h12 m, h21 m⟩)
  have hrowOf : rowOf env resp1 k t = rowOf env resp2 k t := by
    show renderRow env (columns env resp1) k _ t = renderRow env (columns env resp2) k _ t
    rw [hcols]
    exact renderRow_congr env _ k _ _ t (cell_congr env resp1 resp2 k t hrow)
  refine ⟨hrowOf, hcols, cellText_congr env resp1 resp2 k t hrow, ?_, ?_⟩
  · intro m hm
    apply cellText_of_no_record
    intro p hp hc
    exact hm p hp hc.1 hc.2.2
  · intro hrec hok1 hok2
    obtain ⟨line, hl, hmem⟩ := run_row_written env resp1 k t hrec hok1
    have hrec2 : ∃ p ∈ records resp2, atRow k t p := by
      obtain ⟨p, hp, hat⟩ := hrec
      have : p ∈ (records resp1).filter (fun p => decide (atRow k t p)) :=
        List.mem_filter.mpr ⟨hp, decide_eq_true hat⟩
      rw [hrow] at this
      exact ⟨p, (List.mem_filter.mp this).1, hat⟩
    obtain ⟨line2, hl2, hmem2⟩ := run_row_written env resp2 k t hrec2 hok2
    rw [← hrowOf, hl] at hl2
    cases hl2
    exact ⟨line, hl, hmem, hmem2⟩

theorem rows_do_not_cross_contaminate_witness :
    ((records sampleResponse).filter (fun p => decide (atRow "node1:10" 5000000 p))
      = (records sampleVariant).filter (fun p => decide (atRow "node1:10" 5000000 p))) ∧
    (∀ m ∈ metricNames sampleResponse, m ∈ metricNames sampleVariant) ∧
    (∀ m ∈ metricNames sampleVariant, m ∈ metricNames sampleResponse) ∧
    (rowOf utcEnv sampleResponse "node1:10" 5000000
        = rowOf utcEnv sampleVariant "node1:10" 5000000 ∧
    columns utcEnv sampleResponse = columns utcEnv sampleVariant ∧
    (∀ m, cellText (aggregate utcEnv sampleResponse).results "node1:10" 5000000 m
      = cellText (aggregate utcEnv sampleVariant).results "node1:10" 5000000 m) ∧
    (∀ m, (∀ p ∈ records sampleResponse, p.1 = "node1:10" → p.2.measurementName ≠ m) →
      cellText (aggregate utcEnv sampleResponse).results "node1:10" 5000000 m = "N/A") ∧
    ((∃ p ∈ records sampleResponse, atRow "node1:10" 5000000 p) →
      (runListMetricsCommand utcEnv true sampleResponse).failure = none →
      (runListMetricsCommand utcEnv true sampleVariant).failure = none →
      ∃ line, rowOf utcEnv sampleResponse "node1:10" 5000000 = .ok line ∧
        line ∈ (runListMetricsCommand utcEnv true sampleResponse).lines ∧
        line ∈ (runListMetricsCommand utcEnv true sampleVariant).lines)) ∧
    rowOf utcEnv sampleVariant "node1:10" 5000000 = .ok "node1\ta\t00:00:00.5\t5\tN/A" :=
  ⟨by decide, by decide, by decide,
    rows_do_not_cross_contaminate utcEnv sampleResponse sampleVariant "node1:10" 5000000
      (by decide) (by decide) (by decide),
    by rfl⟩

/-- C14: the lines written and the way the handler ends are the same for
every order of the entries of the response: a permutation of a list of entries
with distinct keys gives the same result; and the sorted columns, keys and
timestamps are the same for every order in which the maps `attr`, `results`
and `results[key]` list their entries. -/
theorem output_independent_of_map_order (env : Env) (noHeaders : Bool)
    (resp1 resp2 : Response) (hperm : List.Perm resp1 resp2)
    (hkeys : (resp1.map Prod.fst).Nodup) :
    runListMetricsCommand env noHeaders resp1 = runListMetricsCommand env noHeaders resp2 ∧
    (∀ attr1 attr2 : List (String × String), List.Perm attr1 attr2 →
      sortedTypes attr1 = sortedTypes attr2) ∧
    (∀ results1 results2 : Results, List.Perm results1 results2 →
      sortedKeys results1 = sortedKeys results2) ∧
    (∀ metrics1 metrics2 : List (Nat × Cells), List.Perm metrics1 metrics2 →
      sortedTimes metrics1 = sortedTimes metrics2) := by
  refine ⟨run_congr env noHeaders resp1 resp2 (filter_records_perm resp1 resp2 hperm hkeys),
    ?_, ?_, ?_⟩
  · intro a1 a2 h
    exact insertionSort_strLe_perm _ _ (h.map Prod.fst)
  · intro r1 r2 h
    exact insertionSort_strLe_perm _ _ (h.map Prod.fst)
  · intro m1 m2 h
    apply List.eq_of_perm_of_sorted (r := (· ≤ ·)) _ (List.sorted_insertionSort _ _)
      (List.sorted_insertionSort _ _)
    exact ((List.perm_insertionSort _ _).trans (h.map Prod.fst)).trans
      (List.perm_insertionSort _ _).symm

theorem output_independent_of_map_order_witness :
    List.Perm sampleResponse sampleResponse.reverse ∧
    (sampleResponse.map Prod.fst).Nodup ∧
    (runListMetricsCommand utcEnv false sampleResponse
        = runListMetricsCommand utcEnv false sampleResponse.reverse ∧
    (∀ attr1 attr2 : List (String × String), List.Perm attr1 attr2 →
      sortedTypes attr1 = sortedTypes attr2) ∧
    (∀ results1 results2 : Results, List.Perm results1 results2 →
      sortedKeys results1 = sortedKeys results2) ∧
    (∀ metrics1 metrics2 : List (Nat × Cells), List.Perm metrics1 metrics2 →
      sortedTimes metrics1 = sortedTimes metrics2)) :=
  ⟨(List.reverse_perm _).symm, by decide,
    output_independent_of_map_order utcEnv false sampleResponse sampleResponse.reverse
      (List.reverse_perm _).symm (by decide)⟩

/-- C12: for every timestamp `T` (and every time zone) the response with the
single record (key `node1:10`, timestamp `T`, metric `rsrp`, integer 5)
gives, with headers enabled, exactly two lines, the header and the row of
node `node1`, cell `a`, the formatted time of `T` and the value 5, and the
handler returns `nil`. -/
theorem single_record_table (env : Env) (T : Nat) :
    runListMetricsCommand env false [("node1:10", [[⟨T, "rsrp", .integerValue 5⟩]])]
      = ⟨["Node ID\tCell ID\tTime\trsrp", "node1\ta\t" ++ tsFormat env T ++ "\t5"], none⟩ := by
  have hagg : aggregate env [("node1:10", [[⟨T, "rsrp", .integerValue 5⟩]])]
      = ⟨[("rsrp", "rsrp")], [("node1:10", [(T, [("rsrp", "5")])])]⟩ := by
    simp [aggregate, addRecord, mapGet, mapSet]
    rfl
  have hids : keyIDs "node1:10" = some ("node1", "10") := by decide
  have hatoi : atoi "10" = .ok 10 := by rfl
  have hhex : fmtInt 16 10 = "a" := by decide
  have htypes : sortedTypes [("rsrp", "rsrp")] = ["rsrp"] := by decide
  have hkeys : sortedKeys [("node1:10", [(T, [("rsrp", "5")])])] = ["node1:10"] := rfl
  have htimes : sortedTimes [(T, [("rsrp", "5")])] = [T] := rfl
  have hheader : headerLine ["rsrp"] = "Node ID\tCell ID\tTime\trsrp" := by decide
  have hstr : "node1" ++ "\t" ++ "a" ++ "\t" ++ tsFormat env T ++ "\t" ++ "5"
      = "node1\ta\t" ++ tsFormat env T ++ "\t5" := by
    apply String.ext
    simp [String.data_append]
  have hrow : renderRow env ["rsrp"] "node1:10" [(T, [("rsrp", "5")])] T
      = .ok ("node1\ta\t" ++ tsFormat env T ++ "\t5") := by
    simp only [renderRow, hids, hatoi, hhex, mapGet, if_true, Option.getD_some, appendCells,
      List.foldl_cons, List.foldl_nil, hstr]
  have htimesLoop : renderTimes env ["rsrp"] "node1:10" [(T, [("rsrp", "5")])] [T]
      = ⟨["node1\ta\t" ++ tsFormat env T ++ "\t5"], none⟩ := by
    simp only [renderTimes, hrow]
  have hkeysLoop : renderKeys env ["rsrp"] [("node1:10", [(T, [("rsrp", "5")])])] ["node1:10"]
      = ⟨["node1\ta\t" ++ tsFormat env T ++ "\t5"], none⟩ := by
    simp only [renderKeys, mapGet, if_true, Option.getD_some, htimes, htimesLoop,
      List.append_nil]
  have hrun : runListMetricsCommand env false [("node1:10", [[⟨T, "rsrp", .integerValue 5⟩]])]
      = ⟨[headerLine (sortedTypes
            (aggregate env [("node1:10", [[⟨T, "rsrp", .integerValue 5⟩]])]).attr)]
          ++ (renderKeys env
            (sortedTypes (aggregate env [("node1:10", [[⟨T, "rsrp", .integerValue 5⟩]])]).attr)
            (aggregate env [("node1:10", [[⟨T, "rsrp", .integerValue 5⟩]])]).results
            (sortedKeys
              (aggregate env [("node1:10", [[⟨T, "rsrp", .integerValue 5⟩]])]).results)).lines,
         (renderKeys env
            (sortedTypes (aggregate env [("node1:10", [[⟨T, "rsrp", .integerValue 5⟩]])]).attr)
            (aggregate env [("node1:10", [[⟨T, "rsrp", .integerValue 5⟩]])]).results
            (sortedKeys
              (aggregate env
                [("node1:10", [[⟨T, "rsrp", .integerValue 5⟩]])]).results)).failure⟩ := rfl
  rw [hrun, hagg]
  simp only [htypes, hkeys, hkeysLoop, hheader, List.singleton_append]

/-! ## The first key that fails -/

/-- In a sorted list the first element with a result is smaller than every
other element with one. -/
theorem findSome?_sorted {β : Type} (f : String → Option β) (l : List String)
    (hl : l.Sorted (· < ·)) (v : β) (h : l.findSome? f = some v) :
    ∃ k ∈ l, f k = some v ∧ ∀ j ∈ l, j < k → f j = none := by
  induction l with
  | nil => simp at h
  | cons a l ih =>
    have hs := List.sorted_cons.mp hl
    rw [List.findSome?_cons] at h
    cases ha : f a with
    | some w =>
      rw [ha] at h
      simp only [Option.some.injEq] at h
      subst h
      refine ⟨a, List.mem_cons_self _ _, ha, ?_⟩
      intro j hj hlt
      rcases List.mem_cons.mp hj with rfl | hj
      · exact absurd hlt (lt_irrefl _)
      · exact absurd (lt_trans hlt (hs.1 j hj)) (lt_irrefl _)
    | none =>
      rw [ha] at h
      obtain ⟨k, hk, hfk, hmin⟩ := ih hs.2 h
      refine ⟨k, List.mem_cons_of_mem _ hk, hfk, ?_⟩
      intro j hj hlt
      rcases List.mem_cons.mp hj with rfl | hj
      · exact ha
      · exact hmin j hj hlt

/-- When the handler does not return `nil`, it ends with the failure of the
smallest key, among those that hold a record, that has one. -/
theorem run_failure_first (env : Env) (noHeaders : Bool) (resp : Response) (f : Failure)
    (h : (runListMetricsCommand env noHeaders resp).failure = some f) :
    ∃ k, (∃ p ∈ records resp, p.1 = k) ∧ keyFailure k = some f ∧
      ∀ p ∈ records resp, p.1 < k → keyFailure p.1 = none := by
  rw [run_failure] at h
  obtain ⟨k, hk, hfk, hmin⟩ := findSome?_sorted keyFailure _ (sortedKeys_sorted env resp) f h
  refine ⟨k, (mem_sortedKeys env resp k).mp hk, hfk, ?_⟩
  intro p hp hlt
  exact hmin p.1 ((mem_sortedKeys env resp p.1).mpr ⟨p, hp, rfl⟩) hlt

theorem run_failure_ne_none (env : Env) (noHeaders : Bool) (resp : Response) (k : String)
    (hk : ∃ p ∈ records resp, p.1 = k) (hf : keyFailure k ≠ none) :
    (runListMetricsCommand env noHeaders resp).failure ≠ none := by
  rw [run_failure]
  intro h
  rw [List.findSome?_eq_none_iff] at h
  exact hf (h k ((mem_sortedKeys env resp k).mpr hk))

theorem keyFailure_of_no_colon (k : String) (h : ':' ∉ k.data) :
    keyFailure k = some .indexOutOfRange := by
  unfold keyFailure
  rw [keyIDs_of_no_colon k h]

theorem keyFailure_colon_ok (k : String) (h : ':' ∈ k.data)
    (hok : (atoi (keySecond k)).isOk = true) : keyFailure k = none := by
  rw [keyFailure_of_colon k h]
  cases ha : atoi (keySecond k) with
  | error e => simp [ha, Except.isOk, Except.toBool] at hok
  | ok n => rfl

theorem keyFailure_colon_error (k : String) (h : ':' ∈ k.data) (e : NumError)
    (hbad : atoi (keySecond k) = .error e) : keyFailure k = some (.parseError e) := by
  rw [keyFailure_of_colon k h, hbad]

theorem keyFailure_colon_ne_index (k : String) (h : ':' ∈ k.data) :
    keyFailure k ≠ some .indexOutOfRange := by
  rw [keyFailure_of_colon k h]
  cases atoi (keySecond k) <;> simp

theorem keyIDs_isSome_iff (k : String) : (keyIDs k).isSome = true ↔ ':' ∈ k.data := by
  by_cases h : ':' ∈ k.data
  · simp [keyIDs_of_colon k h, h]
  · simp [keyIDs_of_no_colon k h, h]

theorem splitKey_second_iff (k : String) :
    ((splitKey k).get? 1).isSome = true ↔ (keyIDs k).isSome = true := by
  unfold keyIDs
  cases hs : splitKey k with
  | nil => simp
  | cons a l =>
    cases l with
    | nil => simp
    | cons b l => simp

/-- C13, counterexample: a response that holds a record under the key `z`,
which has no colon, and for which the handler returns the parse error of the
key `a:x`, sorted before `z`: it never reaches the lookup of `ids[1]` for `z`
and does not end with an index failure. -/
theorem colonless_key_after_parse_error :
    (∃ p ∈ records lateColonlessResponse, ':' ∉ p.1.data) ∧
    keyIDs "z" = none ∧
    runListMetricsCommand utcEnv true lateColonlessResponse
      = ⟨[], some (.parseError ⟨"x", .invalid⟩)⟩ ∧
    (runListMetricsCommand utcEnv true lateColonlessResponse).failure
      ≠ some .indexOutOfRange := by
  decide

/-- C13, amended: the second piece of a split key exists exactly when the key
has a colon; when every key that holds a record has a colon the handler never
ends with an index failure; and when a key `k` without a colon holds a record
the handler does not return `nil`, and it ends with an index failure (not a
returned parse error) provided `Atoi` accepts the cell part of every key with
a colon sorted before `k`. -/
theorem second_piece_in_bounds_iff_colon (env : Env) (noHeaders : Bool) (resp : Response) :
    (∀ k, ((splitKey k).get? 1).isSome = true ↔ ':' ∈ k.data) ∧
    (∀ k, (keyIDs k).isSome = true ↔ ':' ∈ k.data) ∧
    ((∀ p ∈ records resp, ':' ∈ p.1.data) →
      (runListMetricsCommand env noHeaders resp).failure ≠ some .indexOutOfRange) ∧
    (∀ k, (∃ p ∈ records resp, p.1 = k) → ':' ∉ k.data →
      (runListMetricsCommand env noHeaders resp).failure ≠ none ∧
      ((∀ p ∈ records resp, p.1 < k → ':' ∈ p.1.data → (atoi (keySecond p.1)).isOk = true) →
        (runListMetricsCommand env noHeaders resp).failure = some .indexOutOfRange)) := by
  refine ⟨fun k => (splitKey_second_iff k).trans (keyIDs_isSome_iff k), keyIDs_isSome_iff, ?_, ?_⟩
  · intro hcolon hf
    obtain ⟨k, ⟨p, hp, hpk⟩, hk, _⟩ := run_failure_first env noHeaders resp _ hf
    exact keyFailure_colon_ne_index k (hpk ▸ hcolon p hp) hk
  · intro k hk hno
    have hkf := keyFailure_of_no_colon k hno
    have hne : (runListMetricsCommand env noHeaders resp).failure ≠ none :=
      run_failure_ne_none env noHeaders resp k hk (by rw [hkf]; simp)
    refine ⟨hne, ?_⟩
    intro hbefore
    cases hf : (runListMetricsCommand env noHeaders resp).failure with
    | none => exact absurd hf hne
    | some f =>
      obtain ⟨k0, ⟨p, hp, hpk⟩, hk0, hmin⟩ := run_failure_first env noHeaders resp f hf
      by_cases hc : ':' ∈ k0.data
      · exfalso
        rcases lt_trichotomy k0 k with hlt | heq | hgt
        · have hok := hbefore p hp (hpk ▸ hlt) (hpk ▸ hc)
          rw [hpk] at hok
          rw [keyFailure_colon_ok k0 hc hok] at hk0
          cases hk0
        · exact hno (heq ▸ hc)
        · obtain ⟨q, hq, hqk⟩ := hk
          have := hmin q hq (hqk ▸ hgt)
          rw [hqk, hkf] at this
          cases this
      · rw [keyFailure_of_no_colon k0 hc] at hk0
        rw [← hk0]

theorem second_piece_in_bounds_iff_colon_witness :
    (∃ p ∈ records colonlessResponse, p.1 = "a") ∧ ':' ∉ "a".data ∧
    (runListMetricsCommand utcEnv false colonlessResponse).failure = some .indexOutOfRange ∧
    (∀ p ∈ records sampleResponse, ':' ∈ p.1.data) ∧
    (runListMetricsCommand utcEnv false sampleResponse).failure ≠ some .indexOutOfRange :=
  ⟨by decide, by decide,
    ((second_piece_in_bounds_iff_colon utcEnv false colonlessResponse).2.2.2 "a" (by decide)
      (by decide)).2
      (by
        have hall : ∀ p ∈ records colonlessResponse, p.1 = "a" ∨ p.1 = "b:x" := by decide
        intro p hp hlt
        rcases hall p hp with h | h
        · rw [h] at hlt
          exact absurd hlt (lt_irrefl _)
        · rw [h] at hlt
          exact absurd hlt (by
            rw [String.lt_iff_toList_lt]
            decide)),
    by decide,
    (second_piece_in_bounds_iff_colon utcEnv false sampleResponse).2.2.1 (by decide)⟩

/-- The rows written are the rows of a list of (key, timestamp) pairs without
repetition. -/
theorem run_rows_nodup (env : Env) (resp : Response) :
    ∃ idx : List (String × Nat), idx.Nodup ∧
      List.Forall₂ (fun kt line => rowOf env resp kt.1 kt.2 = .ok line) idx
        (runListMetricsCommand env true resp).lines ∧
      ((runListMetricsCommand env true resp).failure = none →
        ∀ k t, (∃ p ∈ records resp, atRow k t p) → (k, t) ∈ idx) := by
  obtain ⟨done, h1, h2⟩ := run_rows env resp
  have hnd := rows_nodup env resp
  rcases h2 with ⟨_, hall⟩ | ⟨f, p, rest, hf, hrows, _⟩
  · refine ⟨done, hall ▸ hnd, h1, ?_⟩
    intro _ k t hrec
    rw [hall]
    exact (mem_rows env resp k t).mpr hrec
  · rw [hrows] at hnd
    refine ⟨done, (List.nodup_append.mp hnd).1, h1, ?_⟩
    intro hnone
    rw [hf] at hnone
    cases hnone

/-- C15: when the records of a key, timestamp and metric name are several (or
one), with `p` the last of them in the order of the measurement items of the
key and of the records within each item, the cell of that key, timestamp and
metric shows the value of `p`: the metric is a column and the row of the key
and timestamp, when written, holds the print of the value of `p` in that
column; and the rows written are those of a list of (key, timestamp) pairs
without repetition, so the pair has at most one row, and it has one when the
handler returns `nil`. -/
theorem last_record_wins (env : Env) (resp : Response) (k : String) (t : Nat) (m : String)
    (p : String × MeasurementRecord)
    (hlast : ((records resp).filter (fun q => decide (atCell k t m q))).getLast? = some p) :
    cellText (aggregate env resp).results k t m = sprintValue env p.2.measurementValue ∧
    m ∈ columns env resp ∧
    (∀ line, rowOf env resp k t = .ok line →
      ∃ fields i, line = joinTabs fields ∧ (columns env resp)[i]? = some m ∧
        fields[i + 3]? = some (sprintValue env p.2.measurementValue)) ∧
    ∃ idx : List (String × Nat),
      List.Forall₂ (fun kt line => rowOf env resp kt.1 kt.2 = .ok line) idx
        (runListMetricsCommand env true resp).lines ∧
      idx.Nodup ∧
      ((runListMetricsCommand env true resp).failure = none → (k, t) ∈ idx) := by
  have hp : p ∈ (records resp).filter (fun q => decide (atCell k t m q)) :=
    List.mem_of_getLast?_eq_some hlast
  obtain ⟨hpmem, hpcell⟩ := List.mem_filter.mp hp
  have hpc : atCell k t m p := of_decide_eq_true hpcell
  have hcell : cellText (aggregate env resp).results k t m
      = sprintValue env p.2.measurementValue := by
    rw [cellText_eq, aggregate_eq_aggregateList, aggregateList_cell, lastValue_eq_getLast,
      hlast]
    rfl
  have hcol : m ∈ columns env resp := by
    rw [mem_columns]
    exact List.mem_map.mpr ⟨p, hpmem, hpc.2.2⟩
  refine ⟨hcell, hcol, ?_, ?_⟩
  · intro line hline
    obtain ⟨_, n, _, hl⟩ := rowOf_ok env resp k t line hline
    obtain ⟨i, hi⟩ := List.mem_iff_getElem?.mp hcol
    refine ⟨_, i, hl, hi, ?_⟩
    simp only [List.getElem?_cons_succ, List.getElem?_map, hi, Option.map_some', hcell]
  · obtain ⟨idx, hnd, hrows, hall⟩ := run_rows_nodup env resp
    refine ⟨idx, hrows, hnd, ?_⟩
    intro hnone
    exact hall hnone k t ⟨p, hpmem, hpc.1, hpc.2.1⟩

theorem last_record_wins_witness :
    (((records overwriteResponse).filter (fun q => decide (atCell "n:1" 7 "m" q))).getLast?
      = some ("n:1", ⟨7, "m", .integerValue 3⟩)) ∧
    ((records overwriteResponse).filter (fun q => decide (atCell "n:1" 7 "m" q))).length = 3 ∧
    (cellText (aggregate utcEnv overwriteResponse).results "n:1" 7 "m"
        = sprintValue utcEnv (.integerValue 3) ∧
    "m" ∈ columns utcEnv overwriteResponse ∧
    (∀ line, rowOf utcEnv overwriteResponse "n:1" 7 = .ok line →
      ∃ fields i, line = joinTabs fields ∧ (columns utcEnv overwriteResponse)[i]? = some "m" ∧
        fields[i + 3]? = some (sprintValue utcEnv (.integerValue 3))) ∧
    ∃ idx : List (String × Nat),
      List.Forall₂ (fun kt line => rowOf utcEnv overwriteResponse kt.1 kt.2 = .ok line) idx
        (runListMetricsCommand utcEnv true overwriteResponse).lines ∧
      idx.Nodup ∧
      ((runListMetricsCommand utcEnv true overwriteResponse).failure = none →
        ("n:1", 7) ∈ idx)) ∧
    runListMetricsCommand utcEnv true overwriteResponse = ⟨["n\t1\t00:00:00.0\t3"], none⟩ :=
  ⟨by decide, by decide,
    last_record_wins utcEnv overwriteResponse "n:1" 7 "m" ("n:1", ⟨7, "m", .integerValue 3⟩)
      (by decide),
    by decide⟩

theorem rowOf_error_iff (env : Env) (resp : Response) (k : String) (t : Nat) (f : Failure) :
    rowOf env resp k t = .error f ↔ keyFailure k = some f :=
  renderRow_error_iff env _ k _ t f

theorem rowOf_ok_keyFailure (env : Env) (resp : Response) (k : String) (t : Nat)
    (line : String) (h : rowOf env resp k t = .ok line) : keyFailure k = none :=
  (renderRow_isOk_iff env _ k _ t).mp ⟨line, h⟩

/-- C16, counterexample: the smallest key with a cell that is not a number is
`b:x`, the key `a` sorted before it has no colon, and the handler writes the
header and ends with the index failure of `a`: no error is returned. -/
theorem malformed_key_after_colonless_key :
    (∃ p ∈ records colonlessResponse, p.1 = "b:x") ∧
    ':' ∈ "b:x".data ∧ (atoi (keyCell "b:x")).isOk = false ∧
    (∀ p ∈ records colonlessResponse, ':' ∈ p.1.data → p.1 = "b:x") ∧
    runListMetricsCommand utcEnv false colonlessResponse
      = ⟨["Node ID\tCell ID\tTime\tm"], some .indexOutOfRange⟩ := by
  decide

/-- C16, amended: when `k` holds a record, has a colon and a cell part (the
text between its first colon and the next, or the end of the key) that `Atoi`
rejects with error `e`, and every key that holds a record and is sorted before
`k` has a colon and a cell part that `Atoi` accepts, the handler returns the
parse error `e`, and the lines written are the header (if enabled) followed by
the complete rows, in row order, of exactly the (key, timestamp) pairs that
hold a record and whose key is sorted before `k`: no row of `k` or of a later
key is written. -/
theorem rows_before_malformed_key_written (env : Env) (noHeaders : Bool) (resp : Response)
    (k : String) (e : NumError)
    (hk : ∃ p ∈ records resp, p.1 = k) (hcolon : ':' ∈ k.data)
    (hbad : atoi (keySecond k) = .error e)
    (hmin : ∀ p ∈ records resp, p.1 < k →
      ':' ∈ p.1.data ∧ (atoi (keySecond p.1)).isOk = true) :
    (runListMetricsCommand env noHeaders resp).failure = some (.parseError e) ∧
    ∃ idx : List (String × Nat),
      idx.Pairwise rowLt ∧
      (∀ k1 t, (k1, t) ∈ idx ↔ k1 < k ∧ ∃ p ∈ records resp, atRow k1 t p) ∧
      (runListMetricsCommand env noHeaders resp).lines
        = (if noHeaders then [] else [headerLine (columns env resp)])
          ++ idx.map (fun kt => joinTabs (keyNode kt.1 :: hexOfCell (keySecond kt.1)
              :: tsFormat env kt.2
              :: (columns env resp).map (cellText (aggregate env resp).results kt.1 kt.2))) := by
  have hkf : keyFailure k = some (.parseError e) := keyFailure_colon_error k hcolon e hbad
  have hbefore : ∀ k1, (∃ p ∈ records resp, p.1 = k1) → k1 < k → keyFailure k1 = none := by
    rintro k1 ⟨p, hp, rfl⟩ hlt
    obtain ⟨hc, hok⟩ := hmin p hp hlt
    exact keyFailure_colon_ok p.1 hc hok
  obtain ⟨done, h1, h2⟩ := run_rows env resp
  have hpw := rows_pairwise env resp
  rcases h2 with ⟨hnone, _⟩ | ⟨f, p, rest, hf, hrows, herr⟩
  · exfalso
    exact run_failure_ne_none env true resp k hk (by rw [hkf]; simp) hnone
  · rw [hrows] at hpw
    obtain ⟨hpdone, hprest, hcross⟩ := List.pairwise_append.mp hpw
    have hpf : keyFailure p.1 = some f := (rowOf_error_iff env resp p.1 p.2 f).mp herr
    have hprec : ∃ q ∈ records resp, q.1 = p.1 := by
      have hp : (p.1, p.2) ∈ rowsOf (aggregate env resp).results
          (sortedKeys (aggregate env resp).results) := by
        rw [hrows]
        simp
      obtain ⟨q, hq, hat⟩ := (mem_rows env resp p.1 p.2).mp hp
      exact ⟨q, hq, hat.1⟩
    have hdone_ok : ∀ q ∈ done, keyFailure q.1 = none := by
      intro q hq
      obtain ⟨line, _, hline⟩ := forall₂_left_mem _ _ _ h1 q hq
      exact rowOf_ok_keyFailure env resp q.1 q.2 line hline
    have hnot_lt : ¬ p.1 < k := by
      intro hlt
      rw [hbefore p.1 hprec hlt] at hpf
      cases hpf
    have hpk : p.1 = k := by
      obtain ⟨q, hq, hqk⟩ := hk
      have hrow : (k, q.2.timestamp) ∈ rowsOf (aggregate env resp).results
          (sortedKeys (aggregate env resp).results) :=
        (mem_rows env resp k q.2.timestamp).mpr ⟨q, hq, hqk, rfl⟩
      rw [hrows] at hrow
      rcases List.mem_append.mp hrow with hd | hd
      · have := hdone_ok _ hd
        rw [hkf] at this
        cases this
      · rcases List.mem_cons.mp hd with hd | hd
        · rw [← hd]
        · rcases (List.pairwise_cons.mp hprest).1 _ hd with hlt | ⟨heq, _⟩
          · exact absurd hlt hnot_lt
          · exact heq
    have hfe : f = .parseError e := by
      rw [hpk, hkf] at hpf
      exact (Option.some.inj hpf).symm
    have hlines : (runListMetricsCommand env true resp).lines
        = done.map (fun kt => joinTabs (keyNode kt.1 :: hexOfCell (keySecond kt.1)
              :: tsFormat env kt.2
              :: (columns env resp).map (cellText (aggregate env resp).results kt.1 kt.2))) := by
      apply forall₂_map_of_forall _ _ _ _ h1
      intro a _ b hab
      obtain ⟨_, n, hn, hl⟩ := rowOf_ok env resp a.1 a.2 b hab
      rw [hl, hexOfCell_ok _ n hn]
    refine ⟨?_, done, hpdone, ?_, ?_⟩
    · rw [run_eq env noHeaders resp]
      show (runListMetricsCommand env true resp).failure = _
      rw [hf, hfe]
    · intro k1 t
      constructor
      · intro hmem
        have hrow : (k1, t) ∈ rowsOf (aggregate env resp).results
            (sortedKeys (aggregate env resp).results) := by
          rw [hrows]
          exact List.mem_append_left _ hmem
        refine ⟨?_, (mem_rows env resp k1 t).mp hrow⟩
        rcases hcross _ hmem p (List.mem_cons_self _ _) with hlt | ⟨heq, _⟩
        · exact hpk ▸ hlt
        · exfalso
          have := hdone_ok _ hmem
          have hk1 : k1 = k := heq.trans hpk
          simp only at this
          rw [hk1, hkf] at this
          cases this
      · rintro ⟨hlt, hrec⟩
        have hrow := (mem_rows env resp k1 t).mpr hrec
        rw [hrows] at hrow
        rcases List.mem_append.mp hrow with hd | hd
        · exact hd
        · exfalso
          rcases List.mem_cons.mp hd with hd | hd
          · have : k1 = p.1 := congrArg Prod.fst hd
            rw [this, hpk] at hlt
            exact lt_irrefl _ hlt
          · rcases (List.pairwise_cons.mp hprest).1 _ hd with h | ⟨h, _⟩
            · rw [hpk] at h
              exact lt_irrefl _ (lt_trans h hlt)
            · rw [hpk] at h
              simp only at h
              rw [← h] at hlt
              exact lt_irrefl _ hlt
    · rw [run_eq env noHeaders resp, hlines]

theorem badCellResponse_keys_before :
    ∀ p ∈ records badCellResponse, p.1 < "n:x" →
      ':' ∈ p.1.data ∧ (atoi (keySecond p.1)).isOk = true := by
  have hall : ∀ p ∈ records badCellResponse, p.1 = "n:x" ∨ p.1 = "n:1" := by decide
  intro p hp hlt
  rcases hall p hp with h | h
  · rw [h] at hlt
    exact absurd hlt (lt_irrefl _)
  · rw [h]
    decide

theorem rows_before_malformed_key_written_witness :
    (∃ p ∈ records badCellResponse, p.1 = "n:x") ∧ ':' ∈ "n:x".data ∧
    atoi (keySecond "n:x") = .error ⟨"x", .invalid⟩ ∧
    (∀ p ∈ records badCellResponse, p.1 < "n:x" →
      ':' ∈ p.1.data ∧ (atoi (keySecond p.1)).isOk = true) ∧
    ((runListMetricsCommand utcEnv false badCellResponse).failure
      = some (.parseError ⟨"x", .invalid⟩) ∧
    ∃ idx : List (String × Nat),
      idx.Pairwise rowLt ∧
      (∀ k1 t, (k1, t) ∈ idx ↔ k1 < "n:x" ∧ ∃ p ∈ records badCellResponse, atRow k1 t p) ∧
      (runListMetricsCommand utcEnv false badCellResponse).lines
        = (if false = true then [] else [headerLine (columns utcEnv badCellResponse)])
          ++ idx.map (fun kt => joinTabs (keyNode kt.1 :: hexOfCell (keySecond kt.1)
              :: tsFormat utcEnv kt.2
              :: (columns utcEnv badCellResponse).map
                  (cellText (aggregate utcEnv badCellResponse).results kt.1 kt.2)))) ∧
    runListMetricsCommand utcEnv false badCellResponse
      = ⟨["Node ID\tCell ID\tTime\tm", "n\t1\t00:00:00.0\t2"],
          some (.parseError ⟨"x", .invalid⟩)⟩ :=
  ⟨by decide, by decide, by rfl, badCellResponse_keys_before,
    rows_before_malformed_key_written utcEnv false badCellResponse "n:x" ⟨"x", .invalid⟩
      (by decide) (by decide) (by rfl) badCellResponse_keys_before,
    by decide⟩

end Kpimon
